import Mathlib

/-!
Verification of the sudoku_versus native puzzle generator
(`src/native/sudoku_generator/src/{lib,generator,solver,difficulty}.rs`).

Grids are flat row-major `List Int` buffers (Rust `Vec<i32>` / `&[i32]`);
sizes and positions are `Nat` (Rust `usize`).  Out-of-range reads
(`cell`) return 0 and out-of-range writes (`List.set`) are no-ops; every
access performed by the embedded code is in range under the stated
hypotheses, matching the panic-free executions of the Rust code.

The `rand` crate is an external dependency, so its `StdRng` is modelled
as a deterministic stream of naturals derived from the seed
(`stdRngFromSeed`); `gen_range(0..=b)` consumes one stream element and
reduces it modulo `b+1`.  All theorems that depend on randomness are
proved for every stream, so they hold for any pseudo-random generator
implementation, and the seeded model makes every definition executable.

The `f64` arithmetic in `calculate_target_clues` is modelled exactly:
`f64round` rounds a rational to the nearest binary64 value (ties to
even), which is applied once for the decimal literal and once for the
product, followed by truncation, exactly as the Rust code does.
-/

namespace SudokuGen

/-- Read cell `i` of a flat grid buffer (Rust `grid[i]`, in range in all
reachable states). -/
def cell (g : List Int) (i : Nat) : Int := g.getD i 0

/-- Rust `slice::swap i j`. -/
def swap {α : Type} [Inhabited α] (l : List α) (i j : Nat) : List α :=
  (l.set i (l.getD j default)).set j (l.getD i default)

/-- Model of `rand::rngs::StdRng`: an infinite stream of naturals plus a
cursor.  Theorems quantify over every `stream`, hence over every
possible PRNG behaviour. -/
structure Rng where
  stream : Nat → Nat
  pos : Nat

/-- Model of `rng.gen_range(0..=bound)`: consume one stream element,
reduced into `[0, bound]`. -/
def genRange (r : Rng) (bound : Nat) : Nat × Rng :=
  (r.stream r.pos % (bound + 1), ⟨r.stream, r.pos + 1⟩)

/-- Model of `StdRng::seed_from_u64`: a concrete deterministic stream
mixed from the seed (stand-in for the external ChaCha core; all proofs
are stream-generic). -/
def stdRngFromSeed (seed : Nat) : Rng :=
  ⟨fun n => (seed * 6364136223846793005 + n * 1442695040888963407 + 1) % (2 ^ 64), 0⟩

/-- The Fisher-Yates loop `for i in (1..len).rev() { j = gen_range(0..=i); swap(i,j) }`,
unrolled by descending index: `shuffleGo l r i` performs the iterations
for indices `i, i-1, ..., 1`. -/
def shuffleGo {α : Type} [Inhabited α] (l : List α) (r : Rng) : Nat → List α × Rng
  | 0 => (l, r)
  | Nat.succ i =>
    let p := genRange r (i + 1)
    shuffleGo (swap l (i + 1) p.1) p.2 i

/-- Shared body of `shuffle_numbers` / `shuffle_indices` (the two Rust
functions are textually identical up to element type). -/
def shuffle {α : Type} [Inhabited α] (l : List α) (r : Rng) : List α × Rng :=
  shuffleGo l r (l.length - 1)

/-- `generator.rs::shuffle_numbers`. -/
def shuffle_numbers (l : List Int) (r : Rng) : List Int × Rng := shuffle l r

/-- `generator.rs::shuffle_indices`. -/
def shuffle_indices (l : List Nat) (r : Rng) : List Nat × Rng := shuffle l r

/-- The Rust candidate list `(1..=size as i32).collect::<Vec<i32>>()`. -/
def intRange1 (size : Nat) : List Int := (List.range size).map (fun (k : Nat) => (k : Int) + 1)

/-- Integer square root, `(size as f64).sqrt() as usize`: the `f64`
square root is correctly rounded and truncation yields the integer
square root for every reachable size.  (Defined by a bounded scan so
that it reduces inside the kernel.) -/
def usqrt (n : Nat) : Nat :=
  ((List.range (n + 1)).filter (fun k => k * k ≤ n)).length - 1

/-- Cells of row `row` in scan order (`solver.rs::is_valid_row` loop). -/
def rowCells (g : List Int) (size row : Nat) : List Int :=
  (List.range size).map (fun col => cell g (row * size + col))

/-- Cells of column `col` in scan order (`solver.rs::is_valid_col` loop). -/
def colCells (g : List Int) (size col : Nat) : List Int :=
  (List.range size).map (fun row => cell g (row * size + col))

/-- Cells of the box with origin `(startRow, startCol)` in scan order
(`solver.rs::is_valid_box` double loop). -/
def boxCells (g : List Int) (size startRow startCol boxSize : Nat) : List Int :=
  (List.range boxSize).flatMap (fun dr =>
    (List.range boxSize).map (fun dc => cell g ((startRow + dr) * size + (startCol + dc))))

/-- `solver.rs::is_valid_row`: the `HashSet` scan accepts exactly when
every value is in `1..=size` and no value repeats (then `seen.len() ==
size` holds automatically for the `size` scanned cells). -/
def is_valid_row (g : List Int) (size row : Nat) : Bool :=
  let cs := rowCells g size row
  cs.all (fun v => decide (1 ≤ v) && decide (v ≤ (size : Int))) && decide cs.Nodup

/-- `solver.rs::is_valid_col`. -/
def is_valid_col (g : List Int) (size col : Nat) : Bool :=
  let cs := colCells g size col
  cs.all (fun v => decide (1 ≤ v) && decide (v ≤ (size : Int))) && decide cs.Nodup

/-- `solver.rs::is_valid_box`. -/
def is_valid_box (g : List Int) (size startRow startCol boxSize : Nat) : Bool :=
  let cs := boxCells g size startRow startCol boxSize
  cs.all (fun v => decide (1 ≤ v) && decide (v ≤ (size : Int))) && decide cs.Nodup

/-- The box origins visited by `(0..size).step_by(s)` (for `s ≥ 1`,
i.e. every `size ≥ 1`; `generate` never passes `size = 0`). -/
def boxStarts (size s : Nat) : List Nat :=
  (List.range size).filter (fun k => k % s == 0)

/-- `solver.rs::is_valid_solution`: length check, then all rows, all
columns, and all sub-grid boxes.  `(size as f64).sqrt() as usize` is
`usqrt size`. -/
def is_valid_solution (g : List Int) (size : Nat) : Bool :=
  (g.length == size * size) &&
  ((List.range size).all (fun row => is_valid_row g size row)) &&
  ((List.range size).all (fun col => is_valid_col g size col)) &&
  (let s := usqrt size
   (boxStarts size s).all (fun br =>
     (boxStarts size s).all (fun bc => is_valid_box g size br bc s)))

/-- `generator.rs::is_valid_placement`: `num` occurs nowhere in the row,
column, or box of `(row, col)` (the cell itself included; it is empty at
every call site). -/
def is_valid_placement (g : List Int) (size row col : Nat) (num : Int) : Bool :=
  let s := usqrt size
  let boxRow := (row / s) * s
  let boxCol := (col / s) * s
  ((List.range size).all (fun c => !(cell g (row * size + c) == num))) &&
  ((List.range size).all (fun r => !(cell g (r * size + col) == num))) &&
  ((List.range s).all (fun dr =>
    (List.range s).all (fun dc =>
      !(cell g ((boxRow + dr) * size + (boxCol + dc)) == num))))

/-- `solver.rs::check_constraints`: range check on `value`, then the
three-axis scan that skips the cell `(row, col)` itself. -/
def check_constraints (g : List Int) (size row col : Nat) (value : Int) : Bool :=
  if value < 1 || (size : Int) < value then false
  else
    let s := usqrt size
    let boxRow := (row / s) * s
    let boxCol := (col / s) * s
    ((List.range size).all (fun c => !((c != col) && (cell g (row * size + c) == value)))) &&
    ((List.range size).all (fun r => !((r != row) && (cell g (r * size + col) == value)))) &&
    ((List.range s).all (fun dr =>
      (List.range s).all (fun dc =>
        !((!((boxRow + dr) == row) || !((boxCol + dc) == col)) &&
          (cell g ((boxRow + dr) * size + (boxCol + dc)) == value)))))

/-- The `while current_pos < total && grid[current_pos] != 0` scan of
`count_solutions_recursive`. -/
def find_empty (g : List Int) (total pos : Nat) : Nat :=
  if h : pos < total then
    if cell g pos != 0 then find_empty g total (pos + 1) else pos
  else pos
termination_by total - pos

/-- The scan never moves backwards (needed to define
`count_solutions_recursive` by well-founded recursion). -/
def find_empty_ge (g : List Int) (total pos : Nat) : pos ≤ find_empty g total pos := by
  rw [find_empty]
  split
  · split
    · have ih := find_empty_ge g total (pos + 1)
      omega
    · exact Nat.le_refl pos
  · exact Nat.le_refl pos
termination_by total - pos

/-- The candidate loop of `count_solutions_recursive` (`for num in
1..=size`), abstracted over the recursive call `recf`: place `num`,
recurse, restore the cell, early-exit once the running count reaches
`maxCount`. -/
def countLoop (recf : List Int → List Int × Nat) (cp size row col maxCount : Nat)
    (grid : List Int) (count : Nat) : List Int → List Int × Nat
  | [] => (grid, count)
  | num :: rest =>
    if is_valid_placement grid size row col num then
      let p := recf (grid.set cp num)
      let g2 := p.1.set cp 0
      let c2 := count + p.2
      if maxCount ≤ c2 then (g2, c2)
      else countLoop recf cp size row col maxCount g2 c2 rest
    else countLoop recf cp size row col maxCount grid count rest

/-- `generator.rs::count_solutions_recursive`.  The mutable buffer is
made explicit: the function returns the final buffer contents together
with the count. -/
def count_solutions_recursive (grid : List Int) (size pos maxCount : Nat) :
    List Int × Nat :=
  let cp := find_empty grid (size * size) pos
  if h : size * size ≤ cp then (grid, 1)
  else
    countLoop (fun g => count_solutions_recursive g size (cp + 1) maxCount)
      cp size (cp / size) (cp % size) maxCount grid 0 (intRange1 size)
termination_by size * size - pos
decreasing_by
  have := find_empty_ge grid (size * size) pos
  omega

/-- `generator.rs::count_solutions` (the defensive copy is implicit in
the pure embedding; the count is the second component). -/
def count_solutions (grid : List Int) (size : Nat) : Nat :=
  (count_solutions_recursive grid size 0 2).2

/-- The candidate loop of `fill_grid` (`for num in numbers`), abstracted
over the recursive call `recf` (which threads the RNG): place `num`,
recurse; on success propagate, on failure restore the cell and continue. -/
def fillLoop (recf : List Int → Rng → List Int × Rng × Bool)
    (grid : List Int) (size row col pos : Nat) (r : Rng) :
    List Int → List Int × Rng × Bool
  | [] => (grid, r, false)
  | num :: rest =>
    if is_valid_placement grid size row col num then
      let p := recf (grid.set pos num) r
      if p.2.2 then p
      else fillLoop recf (p.1.set pos 0) size row col pos p.2.1 rest
    else fillLoop recf grid size row col pos r rest

/-- `generator.rs::fill_grid`: randomized backtracking fill from cell
`pos` in row-major order. -/
def fill_grid (grid : List Int) (size pos : Nat) (r : Rng) : List Int × Rng × Bool :=
  let total := size * size
  if h : total ≤ pos then (grid, r, true)
  else
    let p := shuffle_numbers (intRange1 size) r
    fillLoop (fun g rr => fill_grid g size (pos + 1) rr)
      grid size (pos / size) (pos % size) pos p.2 p.1
termination_by size * size - pos

/-- `generator.rs::generate_solution_pattern`: base row is a shuffled
permutation of `1..=size`; cell `(row, col)` holds
`base_row[(col + shift) % size]` with
`shift = (row * s + row / s) % size`. -/
def generate_solution_pattern (size : Nat) (r : Rng) : List Int :=
  let s := usqrt size
  let base_row := (shuffle_numbers (intRange1 size) r).1
  (List.range (size * size)).map (fun i =>
    let row := i / size
    let col := i % size
    let shift := (row * s + row / s) % size
    cell base_row ((col + shift) % size))

/-- `generator.rs::generate_solution`: pattern construction for
`size ≥ 16`, randomized backtracking over a zero-filled buffer
otherwise. -/
def generate_solution (size seed : Nat) : List Int :=
  let rng := stdRngFromSeed seed
  if 16 ≤ size then generate_solution_pattern size rng
  else (fill_grid (List.replicate (size * size) 0) size 0 rng).1

/-- Round-to-nearest, ties-to-even of the exact quotient `n / d`
(`d > 0`): the rounding applied at the last bit of every IEEE-754
binary64 operation. -/
def roundNEdiv (n d : Nat) : Nat :=
  let q := n / d
  let r := n % d
  if 2 * r < d then q
  else if d < 2 * r then q + 1
  else if q % 2 = 0 then q else q + 1

/-- The number of low bits of `v` in excess of a 53-bit mantissa
(0 when `v` already fits; correct for every `v < 2 ^ 181`). -/
def dropBits (v : Nat) : Nat :=
  ((List.range 128).filter (fun k => 2 ^ (53 + k) ≤ v)).length

/-- The binary64 value of the decimal literal `p / q` with `0 < p < q`
(e.g. `0.55` is `f64lit 55 100`), as an exact dyadic `(mantissa, shift)`
pair: the value is `mantissa / 2 ^ shift`.  The mantissa is the
53-bit round-to-nearest (ties even) of `p / q` scaled into
`[2^52, 2^53)`, exactly the value `rustc` stores for the literal. -/
def f64lit (p q : Nat) : Nat × Nat :=
  let t := ((List.range 64).find? (fun t => q ≤ p * 2 ^ t)).getD 0
  (roundNEdiv (p * 2 ^ (52 + t)) q, 52 + t)

/-- `(a as f64) * (m / 2^k)` followed by `as usize`: the exact product
`a * m / 2^k` is rounded to the nearest binary64 (drop the excess low
bits of the integer `a * m` with ties-to-even) and then truncated
toward zero.  `a as f64` is exact for every reachable `a` (`a < 2^53`),
and the product stays far below the `f64` overflow range. -/
def f64mulTrunc (a m k : Nat) : Nat :=
  let v := a * m
  let d := dropBits v
  (roundNEdiv v (2 ^ d) * 2 ^ d) / 2 ^ k

/-- The `match difficulty` table of `generator.rs::calculate_target_clues`;
each arm is the binary64 value of the decimal literal as a dyadic pair. -/
def difficulty_percentage (difficulty : Int) : Nat × Nat :=
  if difficulty = 0 then f64lit 55 100
  else if difficulty = 1 then f64lit 40 100
  else if difficulty = 2 then f64lit 30 100
  else if difficulty = 3 then f64lit 22 100
  else f64lit 40 100

/-- `generator.rs::calculate_target_clues`:
`(total_cells as f64 * percentage) as usize` — one exact-operand `f64`
multiplication, then truncation toward zero. -/
def calculate_target_clues (size : Nat) (difficulty : Int) : Nat :=
  let total_cells := size * size
  f64mulTrunc total_cells (difficulty_percentage difficulty).1
    (difficulty_percentage difficulty).2

/-- The cell-removal loop of `create_puzzle` over the shuffled index
list: stop once `cells_to_remove` cells are removed; for 9x9 a removal
is kept only if the puzzle still has a unique solution. -/
def removeLoop (size : Nat) (check_uniqueness : Bool) (cells_to_remove : Nat) :
    List Int → Nat → List Nat → List Int
  | puzzle, _, [] => puzzle
  | puzzle, removed, i :: rest =>
    if cells_to_remove ≤ removed then puzzle
    else
      let original := cell puzzle i
      let p1 := puzzle.set i 0
      if check_uniqueness then
        if count_solutions p1 size == 1 then
          removeLoop size check_uniqueness cells_to_remove p1 (removed + 1) rest
        else
          removeLoop size check_uniqueness cells_to_remove (p1.set i original) removed rest
      else removeLoop size check_uniqueness cells_to_remove p1 (removed + 1) rest

/-- `generator.rs::create_puzzle`. -/
def create_puzzle (solution : List Int) (difficulty : Int) (size seed : Nat) : List Int :=
  let rng := stdRngFromSeed seed
  let target_clues := calculate_target_clues size difficulty
  let total_cells := size * size
  let cells_to_remove := total_cells - target_clues
  let indices := (shuffle_indices (List.range total_cells) rng).1
  let check_uniqueness := size == 9
  removeLoop size check_uniqueness cells_to_remove solution 0 indices

/-- `lib.rs::is_valid_size`: `matches!(size, 9 | 16 | 25 | 36 | 49 | 100)`. -/
def is_valid_size (size : Int) : Bool :=
  size == 9 || size == 16 || size == 25 || size == 36 || size == 49 || size == 100

/-- `difficulty.rs::is_valid_difficulty`: `(0..=3).contains(&difficulty)`. -/
def is_valid_difficulty (difficulty : Int) : Bool :=
  decide (0 ≤ difficulty) && decide (difficulty ≤ 3)

/-- `lib.rs::generate`: validate inputs, build the solution, defensively
re-validate it, carve the puzzle with seed offset 1.  The `PuzzleResult`
struct is the pair `(grid, solution)`. -/
def generate (size difficulty : Int) (seed : Nat) : Except String (List Int × List Int) :=
  if !is_valid_size size then
    Except.error ("Invalid size: " ++ toString size ++ ". Must be one of: 9, 16, 25, 36, 49, 100")
  else if !is_valid_difficulty difficulty then
    Except.error ("Invalid difficulty: " ++ toString difficulty ++
      ". Must be 0-3 (easy, medium, hard, expert)")
  else
    let size_usize := size.toNat
    let solution := generate_solution size_usize seed
    if !is_valid_solution solution size_usize then
      Except.error "Generated invalid solution"
    else
      Except.ok (create_puzzle solution difficulty size_usize (seed + 1), solution)

/-! Spec-side notions (used to state the claims; independent of the
search algorithms). -/

/-- Spec-side: row-major positions `i` and `j` lie in the same row, the
same column, or the same sub-grid box (box edge `s`). -/
def sameUnit (size s i j : Nat) : Prop :=
  i / size = j / size ∨ i % size = j % size ∨
  (i / size / s = j / size / s ∧ i % size / s = j % size / s)

instance (size s i j : Nat) : Decidable (sameUnit size s i j) := by
  unfold sameUnit; infer_instance

/-- Spec-side: no two distinct filled cells that share a unit hold the
same value (the given clues are mutually consistent). -/
def NoConflicts (g : List Int) (size : Nat) : Prop :=
  ∀ i, i < size * size → ∀ j, j < size * size →
    (i ≠ j ∧ sameUnit size (usqrt size) i j ∧ cell g i ≠ 0) → cell g i ≠ cell g j

instance (g : List Int) (size : Nat) : Decidable (NoConflicts g size) := by
  unfold NoConflicts; infer_instance

/-- Spec-side: every filled cell holds a digit in `1..=size`. -/
def InRangeCells (g : List Int) (size : Nat) : Prop :=
  ∀ i, i < size * size → cell g i ≠ 0 → 1 ≤ cell g i ∧ cell g i ≤ (size : Int)

instance (g : List Int) (size : Nat) : Decidable (InRangeCells g size) := by
  unfold InRangeCells; infer_instance

/-- Spec-side: no empty cells. -/
def Complete (g : List Int) (size : Nat) : Prop :=
  ∀ i, i < size * size → cell g i ≠ 0

instance (g : List Int) (size : Nat) : Decidable (Complete g size) := by
  unfold Complete; infer_instance

/-- Fuelled structural twin of `find_empty` (well-founded definitions do
not reduce inside the kernel; these twins are proved equal to the
originals and used to evaluate them on concrete inputs). -/
def findEmptyFuel (g : List Int) (total : Nat) : Nat → Nat → Nat
  | 0, pos => pos
  | Nat.succ fuel, pos =>
    if pos < total then
      if cell g pos != 0 then findEmptyFuel g total fuel (pos + 1) else pos
    else pos

/-- Fuelled structural twin of `count_solutions_recursive`. -/
def countRecFuel (size maxCount : Nat) : Nat → List Int → Nat → List Int × Nat
  | 0, g, _ => (g, 1)
  | Nat.succ fuel, g, pos =>
    let cp := findEmptyFuel g (size * size) (Nat.succ fuel) pos
    if size * size ≤ cp then (g, 1)
    else
      countLoop (fun g2 => countRecFuel size maxCount fuel g2 (cp + 1))
        cp size (cp / size) (cp % size) maxCount g 0 (intRange1 size)

/-- A concrete valid 9x9 solution, the witness that the 9x9 search
space is non-empty. -/
def sol9 : List Int :=
  [1,2,3,4,5,6,7,8,9,
   4,5,6,7,8,9,1,2,3,
   7,8,9,1,2,3,4,5,6,
   2,3,4,5,6,7,8,9,1,
   5,6,7,8,9,1,2,3,4,
   8,9,1,2,3,4,5,6,7,
   3,4,5,6,7,8,9,1,2,
   6,7,8,9,1,2,3,4,5,
   9,1,2,3,4,5,6,7,8]

/-- Spec-side invariant of the backtracking fill at cell `pos`: the
buffer has the right length, every filled cell is a digit, no unit
conflict exists, cells before `pos` are filled and cells from `pos` on
are empty. -/
def FillInv (g : List Int) (size pos : Nat) : Prop :=
  g.length = size * size ∧ InRangeCells g size ∧ NoConflicts g size ∧
  (∀ k, k < pos → cell g k ≠ 0) ∧ (∀ k, pos ≤ k → k < size * size → cell g k = 0)

/-- Spec-side: `f` is a complete conflict-free grid agreeing with `g`
on all cells before `pos` (a witness that the search from `pos` can
succeed). -/
def ExtendsFrom (g f : List Int) (size pos : Nat) : Prop :=
  f.length = size * size ∧ (∀ k, k < pos → cell f k = cell g k) ∧
  (∀ i, i < size * size → 1 ≤ cell f i ∧ cell f i ≤ (size : Int)) ∧ NoConflicts f size

/-- Spec-side reference enumeration of every way to fill the empty
cells from position `pos` on with values `1..=size` — no pruning, no
cutoff.  Completions of `g` are the members that pass
`is_valid_solution`. -/
def allFills (g : List Int) (size pos : Nat) : List (List Int) :=
  if h : pos < size * size then
    if cell g pos != 0 then allFills g size (pos + 1)
    else (intRange1 size).flatMap (fun v => allFills (g.set pos v) size (pos + 1))
  else [g]
termination_by size * size - pos

/-- Spec-side: the number of distinct completions of a grid into a valid
solution. -/
def numCompletions (g : List Int) (size : Nat) : Nat :=
  ((allFills g size 0).filter (fun x => is_valid_solution x size)).length

/-- Fuelled structural twin of `allFills`. -/
def allFillsFuel (size : Nat) : Nat → List Int → Nat → List (List Int)
  | 0, g, _ => [g]
  | Nat.succ fuel, g, pos =>
    if pos < size * size then
      if cell g pos != 0 then allFillsFuel size fuel g (pos + 1)
      else (intRange1 size).flatMap (fun v => allFillsFuel size fuel (g.set pos v) (pos + 1))
    else [g]

/-- A concrete 4x4 puzzle grid (conflict-free, in range): the recursive
counter returns 3 on it, exceeding the advertised cutoff of 2. -/
def puzzle4 : List Int :=
  [0,2,0,0,
   0,0,0,2,
   2,0,0,3,
   0,3,2,0]

/-- A concrete valid 4x4 solution, for instantiating the carving
theorems at a size other than 9. -/
def sol4 : List Int :=
  [1,2,3,4,
   3,4,1,2,
   2,1,4,3,
   4,3,2,1]

section BasicLemmas

theorem cell_set_self (g : List Int) (i : Nat) (v : Int) (h : i < g.length) :
    cell (g.set i v) i = v := by
  simp [cell, List.getD_eq_getElem?_getD, List.getElem?_set_self, h]

theorem cell_set_ne (g : List Int) (i j : Nat) (v : Int) (h : i ≠ j) :
    cell (g.set i v) j = cell g j := by
  simp [cell, List.getD_eq_getElem?_getD, List.getElem?_set_ne h]

theorem set_cell_self (g : List Int) (i : Nat) :
    g.set i (cell g i) = g := by
  by_cases h : i < g.length
  · apply List.ext_getElem?
    intro n
    by_cases hn : i = n
    · subst hn
      simp [cell, List.getD_eq_getElem?_getD, List.getElem?_set_self, h, List.getElem?_eq_getElem]
    · simp [List.getElem?_set_ne hn]
  · exact List.set_eq_of_length_le (by omega)

theorem cell_set_set (g : List Int) (i : Nat) (v w : Int) :
    (g.set i v).set i w = g.set i w := List.set_set ..

theorem length_set (g : List Int) (i : Nat) (v : Int) :
    (g.set i v).length = g.length := List.length_set ..

theorem cell_eq_zero_of_ge (g : List Int) (i : Nat) (h : g.length ≤ i) :
    cell g i = 0 := by
  simp [cell, List.getD_eq_getElem?_getD, List.getElem?_eq_none (l := g) h]

theorem mem_intRange1 (size : Nat) (v : Int) :
    v ∈ intRange1 size ↔ 1 ≤ v ∧ v ≤ (size : Int) := by
  simp only [intRange1, List.mem_map, List.mem_range]
  constructor
  · rintro ⟨k, hk, rfl⟩
    omega
  · rintro ⟨h1, h2⟩
    refine ⟨(v - 1).toNat, ?_, ?_⟩
    · have : ((v - 1).toNat : Int) = v - 1 := Int.toNat_of_nonneg (by omega)
      have hlt : (v - 1 : Int) < (size : Int) := by omega
      omega
    · have : ((v - 1).toNat : Int) = v - 1 := Int.toNat_of_nonneg (by omega)
      omega

theorem nodup_intRange1 (size : Nat) : (intRange1 size).Nodup := by
  unfold intRange1
  refine List.Nodup.map_on ?_ (List.nodup_range size)
  intro x _ y _ h
  omega

theorem length_intRange1 (size : Nat) : (intRange1 size).length = size := by
  rw [intRange1, List.length_map, List.length_range]

end BasicLemmas

section PermLemmas

theorem getD_cons_set_perm {α : Type} [Inhabited α] :
    ∀ (xs : List α) (k : Nat) (x : α), k < xs.length →
      List.Perm ((xs.getD k default) :: xs.set k x) (x :: xs)
  | y :: ys, 0, x, _ => by
      simpa using List.Perm.swap x y ys
  | y :: ys, Nat.succ k, x, h => by
      have ih := getD_cons_set_perm ys k x (by simpa using h)
      have e1 : ((y :: ys).getD (k+1) default) :: (y :: ys).set (k+1) x
          = (ys.getD k default) :: y :: ys.set k x := by simp
      rw [e1]
      have s1 : List.Perm ((ys.getD k default) :: y :: ys.set k x)
          (y :: (ys.getD k default) :: ys.set k x) := List.Perm.swap _ _ _
      have s2 : List.Perm (y :: (ys.getD k default) :: ys.set k x)
          (y :: x :: ys) := List.Perm.cons y ih
      have s3 : List.Perm (y :: x :: ys) (x :: y :: ys) := List.Perm.swap _ _ _
      exact (s1.trans s2).trans s3

theorem swap_perm {α : Type} [Inhabited α] (l : List α) (i j : Nat)
    (hi : i < l.length) (hj : j < l.length) : List.Perm (swap l i j) l := by
  induction l generalizing i j with
  | nil => simp at hi
  | cons x xs ih =>
    match i, j with
    | 0, 0 =>
      simp [swap]
    | 0, Nat.succ j =>
      have hj' : j < xs.length := by simpa using hj
      show List.Perm ((xs.getD j default) :: xs.set j x) (x :: xs)
      exact getD_cons_set_perm xs j x hj'
    | Nat.succ i, 0 =>
      have hi' : i < xs.length := by simpa using hi
      show List.Perm ((xs.getD i default) :: xs.set i x) (x :: xs)
      exact getD_cons_set_perm xs i x hi'
    | Nat.succ i, Nat.succ j =>
      have hi' : i < xs.length := by simpa using hi
      have hj' : j < xs.length := by simpa using hj
      show List.Perm (x :: swap xs i j) (x :: xs)
      exact List.Perm.cons x (ih i j hi' hj')

theorem shuffleGo_perm {α : Type} [Inhabited α] :
    ∀ (i : Nat) (l : List α) (r : Rng), i < l.length → List.Perm (shuffleGo l r i).1 l
  | 0, l, _, _ => List.Perm.refl l
  | Nat.succ i, l, r, h => by
      have hj : (genRange r (i+1)).1 < l.length := by
        have : (genRange r (i+1)).1 < i + 1 + 1 := Nat.mod_lt _ (Nat.succ_pos _)
        omega
      have hsw : List.Perm (swap l (i+1) (genRange r (i+1)).1) l := swap_perm l _ _ h hj
      have hlen : (swap l (i+1) (genRange r (i+1)).1).length = l.length := hsw.length_eq
      have ih := shuffleGo_perm i (swap l (i+1) (genRange r (i+1)).1) (genRange r (i+1)).2
        (by omega)
      exact ih.trans hsw

theorem shuffle_perm {α : Type} [Inhabited α] (l : List α) (r : Rng) :
    List.Perm (shuffle l r).1 l := by
  unfold shuffle
  match l with
  | [] => simp [shuffleGo]
  | x :: xs =>
    exact shuffleGo_perm _ _ r (by simp)

theorem shuffle_numbers_perm (l : List Int) (r : Rng) :
    List.Perm (shuffle_numbers l r).1 l := shuffle_perm l r

theorem shuffle_indices_perm (l : List Nat) (r : Rng) :
    List.Perm (shuffle_indices l r).1 l := shuffle_perm l r

end PermLemmas

section EvalBridges

theorem findEmptyFuel_eq (g : List Int) (total : Nat) :
    ∀ fuel pos, total ≤ pos + fuel →
      findEmptyFuel g total fuel pos = find_empty g total pos
  | 0, pos, h => by
      rw [find_empty]
      have hp : ¬ pos < total := by omega
      simp [findEmptyFuel, hp]
  | Nat.succ fuel, pos, h => by
      rw [find_empty, findEmptyFuel]
      by_cases hp : pos < total
      · simp only [hp, dite_true, if_true]
        by_cases hc : cell g pos != 0
        · simp only [hc, if_true]
          exact findEmptyFuel_eq g total fuel (pos + 1) (by omega)
        · simp [hc]
      · simp [hp]

theorem countRecFuel_eq (size maxCount : Nat) :
    ∀ fuel (g : List Int) (pos : Nat), size * size ≤ pos + fuel →
      countRecFuel size maxCount fuel g pos = count_solutions_recursive g size pos maxCount
  | 0, g, pos, h => by
      rw [count_solutions_recursive, countRecFuel]
      have h1 : find_empty g (size * size) pos = pos := by
        rw [find_empty]
        have hp : ¬ pos < size * size := by omega
        simp [hp]
      have hp : size * size ≤ pos := by omega
      simp [h1, hp]
  | Nat.succ fuel, g, pos, h => by
      have hfe : findEmptyFuel g (size * size) (Nat.succ fuel) pos
          = find_empty g (size * size) pos :=
        findEmptyFuel_eq g (size * size) (Nat.succ fuel) pos (by omega)
      have hge := find_empty_ge g (size * size) pos
      rw [count_solutions_recursive, countRecFuel, hfe]
      by_cases hcp : size * size ≤ find_empty g (size * size) pos
      · simp [hcp]
      · simp only [hcp, if_false, dite_false]
        have hrec : (fun g2 => countRecFuel size maxCount fuel g2
              (find_empty g (size * size) pos + 1))
            = (fun g2 => count_solutions_recursive g2 size
              (find_empty g (size * size) pos + 1) maxCount) :=
          funext (fun g2 => countRecFuel_eq size maxCount fuel g2 _ (by omega))
        rw [hrec]

theorem count_solutions_eval (g : List Int) (size fuel : Nat)
    (h : size * size ≤ fuel) :
    count_solutions g size = (countRecFuel size 2 fuel g 0).2 := by
  rw [count_solutions, countRecFuel_eq size 2 fuel g 0 (by omega)]

theorem allFillsFuel_eq (size : Nat) :
    ∀ fuel (g : List Int) (pos : Nat), size * size ≤ pos + fuel →
      allFillsFuel size fuel g pos = allFills g size pos
  | 0, g, pos, h => by
      rw [allFills]
      have hp : ¬ pos < size * size := by omega
      simp [allFillsFuel, hp]
  | Nat.succ fuel, g, pos, h => by
      rw [allFills, allFillsFuel]
      by_cases hp : pos < size * size
      · simp only [hp, dite_true, if_true]
        by_cases hc : cell g pos != 0
        · simp only [hc, if_true]
          exact allFillsFuel_eq size fuel g (pos + 1) (by omega)
        · simp only [hc, if_false, Bool.false_eq_true]
          have hrec : (fun v => allFillsFuel size fuel (g.set pos v) (pos + 1))
              = (fun v => allFills (g.set pos v) size (pos + 1)) :=
            funext (fun v => allFillsFuel_eq size fuel (g.set pos v) (pos + 1) (by omega))
          rw [hrec]
      · simp [hp]

theorem numCompletions_eval (g : List Int) (size fuel : Nat)
    (h : size * size ≤ fuel) :
    numCompletions g size
      = ((allFillsFuel size fuel g 0).filter (fun x => is_valid_solution x size)).length := by
  rw [numCompletions, allFillsFuel_eq size fuel g 0 (by omega)]

end EvalBridges

section FindEmptyLemmas

theorem find_empty_cell (g : List Int) (total pos : Nat)
    (h : find_empty g total pos < total) : cell g (find_empty g total pos) = 0 := by
  rw [find_empty] at h ⊢
  split at h
  · rename_i hp
    split at h
    · rename_i hc
      simp only [hp, dite_true, hc, if_true] at h ⊢
      exact find_empty_cell g total (pos + 1) h
    · rename_i hc
      simp only [hp, dite_true, hc, if_false] at h ⊢
      simpa using hc
  · omega
termination_by total - pos

theorem find_empty_skipped (g : List Int) (total pos k : Nat)
    (hpk : pos ≤ k) (hk : k < find_empty g total pos) : cell g k ≠ 0 := by
  rw [find_empty] at hk
  split at hk
  · rename_i hp
    split at hk
    · rename_i hc
      by_cases he : pos = k
      · subst he
        simpa using hc
      · exact find_empty_skipped g total (pos + 1) k (by omega) hk
    · omega
  · omega
termination_by total - pos

theorem find_empty_min (g : List Int) (total pos k : Nat)
    (hpk : pos ≤ k) (hk : k < total) (hc : cell g k = 0) :
    find_empty g total pos ≤ k := by
  by_contra hlt
  exact find_empty_skipped g total pos k hpk (by omega) hc

end FindEmptyLemmas

section CountRestore

theorem countLoop_fst (recf : List Int → List Int × Nat)
    (hrec : ∀ g', (recf g').1 = g') (cp size row col m : Nat) :
    ∀ (nums : List Int) (g : List Int) (count : Nat), cell g cp = 0 →
      (countLoop recf cp size row col m g count nums).1 = g
  | [], g, count, _ => rfl
  | num :: rest, g, count, hcp => by
      rw [countLoop]
      by_cases hv : is_valid_placement g size row col num
      · simp only [hv, if_true]
        have h1 : (recf (g.set cp num)).1 = g.set cp num := hrec _
        have h2 : ((recf (g.set cp num)).1.set cp 0) = g := by
          rw [h1, cell_set_set]
          calc g.set cp 0 = g.set cp (cell g cp) := by rw [hcp]
            _ = g := set_cell_self g cp
        by_cases hm : m ≤ count + (recf (g.set cp num)).2
        · simp only [hm, if_true]
          exact h2
        · simp only [hm, if_false]
          rw [h2]
          exact countLoop_fst recf hrec cp size row col m rest g _ hcp
      · simp only [hv, if_false]
        exact countLoop_fst recf hrec cp size row col m rest g count hcp

theorem csr_fst_aux :
    ∀ (n : Nat) (g : List Int) (size pos m : Nat), size * size ≤ pos + n →
      (count_solutions_recursive g size pos m).1 = g
  | n, g, size, pos, m, h => by
      rw [count_solutions_recursive]
      by_cases hcp : size * size ≤ find_empty g (size * size) pos
      · simp [hcp]
      · simp only [hcp, dite_false]
        have hge := find_empty_ge g (size * size) pos
        have hcell : cell g (find_empty g (size * size) pos) = 0 :=
          find_empty_cell g (size * size) pos (by omega)
        match n, h with
        | Nat.zero, h =>
          have h' : size * size ≤ pos := by simpa using h
          omega
        | Nat.succ k, h =>
          exact countLoop_fst _
            (fun g' => csr_fst_aux k g' size (find_empty g (size * size) pos + 1) m (by omega))
            _ size _ _ m (intRange1 size) g 0 hcell

/-- `count_solutions_recursive` returns its buffer in exactly the state
it received it, on every path. -/
theorem count_solutions_recursive_fst (g : List Int) (size pos m : Nat) :
    (count_solutions_recursive g size pos m).1 = g :=
  csr_fst_aux (size * size) g size pos m (by omega)

end CountRestore

section CountingZeros

theorem count_zero_set_le (v : Int) :
    ∀ (p : List Int) (i : Nat), (p.set i v).count 0 ≤ p.count 0 + 1 := by
  intro p
  induction p with
  | nil => intro i; simp
  | cons x xs ih =>
    intro i
    match i with
    | 0 =>
      simp only [List.set_cons_zero, List.count_cons]
      split_ifs <;> omega
    | Nat.succ k =>
      simp only [List.set_cons_succ, List.count_cons]
      have := ih k
      split_ifs <;> omega

theorem count_zero_set_eq :
    ∀ (p : List Int) (i : Nat), i < p.length → cell p i ≠ 0 →
      (p.set i 0).count 0 = p.count 0 + 1 := by
  intro p
  induction p with
  | nil => intro i h; simp at h
  | cons x xs ih =>
    intro i hlen hcell
    match i with
    | 0 =>
      have hx : x ≠ 0 := by simpa [cell] using hcell
      simp [List.count_cons, hx]
    | Nat.succ k =>
      have hk : k < xs.length := by simpa using hlen
      have hc : cell xs k ≠ 0 := by simpa [cell] using hcell
      simp only [List.set_cons_succ, List.count_cons]
      rw [ih k hk hc]
      split_ifs <;> omega

theorem count_zero_set_self_eq :
    ∀ (p : List Int) (i : Nat), cell p i = 0 →
      (p.set i 0).count 0 = p.count 0 := by
  intro p i h
  have : p.set i 0 = p := by
    calc p.set i 0 = p.set i (cell p i) := by rw [h]
      _ = p := set_cell_self p i
  rw [this]

end CountingZeros

section RemoveLoopLemmas

theorem removeLoop_restore_eq (p : List Int) (i : Nat) :
    (p.set i 0).set i (cell p i) = p := by
  rw [cell_set_set, set_cell_self]

theorem removeLoop_length (size : Nat) (cu : Bool) (ctr : Nat) :
    ∀ (idxs : List Nat) (p : List Int) (rm : Nat),
      (removeLoop size cu ctr p rm idxs).length = p.length
  | [], p, rm => rfl
  | i :: rest, p, rm => by
      rw [removeLoop]
      by_cases h1 : ctr ≤ rm
      · rw [if_pos h1]
      · rw [if_neg h1]
        by_cases hcu : cu = true
        · rw [if_pos hcu]
          by_cases hc : (count_solutions (p.set i 0) size == 1) = true
          · rw [if_pos hc, removeLoop_length size cu ctr rest (p.set i 0) (rm + 1), length_set]
          · rw [if_neg hc, removeLoop_length size cu ctr rest _ rm, removeLoop_restore_eq]
        · rw [if_neg hcu, removeLoop_length size cu ctr rest (p.set i 0) (rm + 1), length_set]

/-- Every non-zero cell of the carved grid equals the corresponding
cell of the grid the loop started from. -/
theorem removeLoop_agrees (size : Nat) (cu : Bool) (ctr : Nat) (sol : List Int) :
    ∀ (idxs : List Nat) (p : List Int) (rm : Nat),
      (∀ j, cell p j ≠ 0 → cell p j = cell sol j) →
      ∀ j, cell (removeLoop size cu ctr p rm idxs) j ≠ 0 →
        cell (removeLoop size cu ctr p rm idxs) j = cell sol j
  | [], p, rm, hp => hp
  | i :: rest, p, rm, hp => by
      rw [removeLoop]
      by_cases h1 : ctr ≤ rm
      · rw [if_pos h1]
        exact hp
      · rw [if_neg h1]
        have hset : ∀ j, cell (p.set i 0) j ≠ 0 → cell (p.set i 0) j = cell sol j := by
          intro j hj
          by_cases hij : i = j
          · subst hij
            by_cases hl : i < p.length
            · rw [cell_set_self p i 0 hl] at hj
              exact absurd rfl hj
            · rw [List.set_eq_of_length_le (by omega)] at hj ⊢
              exact hp i hj
          · rw [cell_set_ne p i j 0 hij] at hj ⊢
            exact hp j hj
        by_cases hcu : cu = true
        · rw [if_pos hcu]
          by_cases hc : (count_solutions (p.set i 0) size == 1) = true
          · rw [if_pos hc]
            exact removeLoop_agrees size cu ctr sol rest (p.set i 0) (rm + 1) hset
          · rw [if_neg hc, removeLoop_restore_eq]
            exact removeLoop_agrees size cu ctr sol rest p rm hp
        · rw [if_neg hcu]
          exact removeLoop_agrees size cu ctr sol rest (p.set i 0) (rm + 1) hset

/-- When the uniqueness oracle is consulted, the loop preserves
`count_solutions = 1`. -/
theorem removeLoop_unique (size ctr : Nat) :
    ∀ (idxs : List Nat) (p : List Int) (rm : Nat),
      count_solutions p size = 1 →
      count_solutions (removeLoop size true ctr p rm idxs) size = 1
  | [], p, rm, hp => hp
  | i :: rest, p, rm, hp => by
      rw [removeLoop]
      by_cases h1 : ctr ≤ rm
      · rw [if_pos h1]
        exact hp
      · rw [if_neg h1, if_pos rfl]
        by_cases hc : (count_solutions (p.set i 0) size == 1) = true
        · rw [if_pos hc]
          exact removeLoop_unique size ctr rest (p.set i 0) (rm + 1) (by simpa using hc)
        · rw [if_neg hc, removeLoop_restore_eq]
          exact removeLoop_unique size ctr rest p rm hp

/-- The loop never zeroes more than `ctr - rm` further cells. -/
theorem removeLoop_zeros_le (size : Nat) (cu : Bool) (ctr : Nat) :
    ∀ (idxs : List Nat) (p : List Int) (rm : Nat),
      (removeLoop size cu ctr p rm idxs).count 0 ≤ p.count 0 + (ctr - rm)
  | [], p, rm => by
      rw [removeLoop]
      omega
  | i :: rest, p, rm => by
      rw [removeLoop]
      by_cases h1 : ctr ≤ rm
      · rw [if_pos h1]
        omega
      · rw [if_neg h1]
        have hstep : (removeLoop size cu ctr (p.set i 0) (rm + 1) rest).count 0
            ≤ p.count 0 + (ctr - rm) := by
          have h2 := removeLoop_zeros_le size cu ctr rest (p.set i 0) (rm + 1)
          have h3 : (p.set i 0).count 0 ≤ p.count 0 + 1 := count_zero_set_le 0 p i
          omega
        by_cases hcu : cu = true
        · rw [if_pos hcu]
          by_cases hc : (count_solutions (p.set i 0) size == 1) = true
          · rw [if_pos hc]
            exact hstep
          · rw [if_neg hc, removeLoop_restore_eq]
            have := removeLoop_zeros_le size cu ctr rest p rm
            omega
        · rw [if_neg hcu]
          exact hstep

/-- With the oracle disabled every removal is accepted: the loop zeroes
exactly `min (ctr - rm) idxs.length` further cells (all indices fresh,
in range, and non-empty). -/
theorem removeLoop_zeros_exact (size ctr : Nat) :
    ∀ (idxs : List Nat) (p : List Int) (rm : Nat),
      (∀ i ∈ idxs, i < p.length ∧ cell p i ≠ 0) → idxs.Nodup →
      (removeLoop size false ctr p rm idxs).count 0
        = p.count 0 + min (ctr - rm) idxs.length
  | [], p, rm, _, _ => by
      rw [removeLoop]
      simp
  | i :: rest, p, rm, hall, hnd => by
      rw [removeLoop]
      by_cases h1 : ctr ≤ rm
      · rw [if_pos h1]
        have : ctr - rm = 0 := by omega
        simp [this]
      · rw [if_neg h1, if_neg (by simp : ¬(false = true))]
        have hi := hall i (List.mem_cons_self i rest)
        have hrest : ∀ j ∈ rest, j < (p.set i 0).length ∧ cell (p.set i 0) j ≠ 0 := by
          intro j hj
          have hji : i ≠ j := by
            intro he
            subst he
            exact (List.nodup_cons.mp hnd).1 hj
          have := hall j (List.mem_cons_of_mem i hj)
          rw [length_set, cell_set_ne p i j 0 hji]
          exact this
        have hrec := removeLoop_zeros_exact size ctr rest (p.set i 0) (rm + 1) hrest
          (List.nodup_cons.mp hnd).2
        rw [hrec, count_zero_set_eq p i hi.1 hi.2]
        simp only [List.length_cons]
        omega

end RemoveLoopLemmas

section IndexArith

theorem rowcol_div (row col size : Nat) (hc : col < size) :
    (row * size + col) / size = row := by
  rw [Nat.mul_comm row size, Nat.mul_add_div (by omega)]
  rw [Nat.div_eq_of_lt hc]
  omega

theorem rowcol_mod (row col size : Nat) (hc : col < size) :
    (row * size + col) % size = col := by
  rw [Nat.mul_comm row size, Nat.mul_add_mod]
  exact Nat.mod_eq_of_lt hc

theorem idx_div_lt (i size : Nat) (h : i < size * size) : i / size < size :=
  Nat.div_lt_of_lt_mul (by omega)

theorem idx_mod_lt (i size : Nat) (h : i < size * size) : i % size < size := by
  have hz : 0 < size := by
    rcases Nat.eq_zero_or_pos size with h0 | h0
    · subst h0
      simp at h
    · exact h0
  exact Nat.mod_lt _ hz

theorem idx_decomp (i size : Nat) :
    (i / size) * size + i % size = i := by
  rw [Nat.mul_comm]
  exact Nat.div_add_mod i size

end IndexArith

section MapRangeNodup

theorem map_range_injOn {f : Nat → Int} {n : Nat}
    (h : ((List.range n).map f).Nodup) :
    ∀ i, i < n → ∀ j, j < n → f i = f j → i = j := by
  intro i hi j hj hf
  exact (List.nodup_map_iff_inj_on (List.nodup_range n)).mp h i
    (List.mem_range.mpr hi) j (List.mem_range.mpr hj) hf

theorem map_range_nodup_of_inj {f : Nat → Int} {n : Nat}
    (h : ∀ i, i < n → ∀ j, j < n → f i = f j → i = j) :
    ((List.range n).map f).Nodup := by
  refine List.Nodup.map_on ?_ (List.nodup_range n)
  intro x hx y hy
  exact h x (List.mem_range.mp hx) y (List.mem_range.mp hy)

theorem flatMap_range_eq_map (f : Nat → Nat → Int) (n : Nat) :
    ∀ m, (List.range m).flatMap (fun a => (List.range n).map (fun b => f a b))
      = (List.range (m * n)).map (fun k => f (k / n) (k % n)) := by
  intro m
  induction m with
  | zero => simp
  | succ m ih =>
    rw [List.range_succ, List.flatMap_append, ih]
    have hr : (m + 1) * n = m * n + n := by ring
    rw [hr, List.range_add, List.map_append]
    congr 1
    · simp only [List.flatMap_cons, List.flatMap_nil, List.append_nil, List.map_map]
      refine List.map_congr_left ?_
      intro b hb
      have hbn : b < n := List.mem_range.mp hb
      have h1 : (m * n + b) / n = m := by
        rw [Nat.add_comm, Nat.add_mul_div_right _ _ (by omega), Nat.div_eq_of_lt hbn]
        omega
      have h2 : (m * n + b) % n = b := by
        rw [Nat.add_comm, Nat.add_mul_mod_self_right]
        exact Nat.mod_eq_of_lt hbn
      simp only [Function.comp]
      rw [h1, h2]

theorem boxCells_eq_map (g : List Int) (size br bc s : Nat) :
    boxCells g size br bc s
      = (List.range (s * s)).map (fun k => cell g ((br + k / s) * size + (bc + k % s))) := by
  rw [boxCells]
  exact flatMap_range_eq_map (fun dr dc => cell g ((br + dr) * size + (bc + dc))) s s

theorem mem_boxStarts (size s b : Nat) :
    b ∈ boxStarts size s ↔ b < size ∧ b % s = 0 := by
  simp [boxStarts, List.mem_filter, List.mem_range, And.comm]

end MapRangeNodup

section ValidityBridge

theorem mul_add_inj (s a b c d : Nat) (hb : b < s) (hd : d < s)
    (h : a * s + b = c * s + d) : a = c ∧ b = d := by
  have h1 : (a * s + b) / s = a := rowcol_div a b s hb
  have h2 : (c * s + d) / s = c := rowcol_div c d s hd
  have hac : a = c := by rw [← h1, h, h2]
  subst hac
  exact ⟨rfl, Nat.add_left_cancel h⟩

theorem rowcol_lt (row col size : Nat) (hr : row < size) (hc : col < size) :
    row * size + col < size * size := by
  have h1 : row * size + col < (row + 1) * size := by
    have : (row + 1) * size = row * size + size := by ring
    omega
  have h2 : (row + 1) * size ≤ size * size := Nat.mul_le_mul_right _ (by omega)
  omega

theorem is_valid_row_iff (g : List Int) (size row : Nat) :
    is_valid_row g size row = true ↔
      ((∀ v ∈ rowCells g size row, 1 ≤ v ∧ v ≤ (size : Int)) ∧
        (rowCells g size row).Nodup) := by
  simp [is_valid_row, List.all_eq_true, Bool.and_eq_true, decide_eq_true_eq]

theorem is_valid_col_iff (g : List Int) (size col : Nat) :
    is_valid_col g size col = true ↔
      ((∀ v ∈ colCells g size col, 1 ≤ v ∧ v ≤ (size : Int)) ∧
        (colCells g size col).Nodup) := by
  simp [is_valid_col, List.all_eq_true, Bool.and_eq_true, decide_eq_true_eq]

theorem is_valid_box_iff (g : List Int) (size br bc s : Nat) :
    is_valid_box g size br bc s = true ↔
      ((∀ v ∈ boxCells g size br bc s, 1 ≤ v ∧ v ≤ (size : Int)) ∧
        (boxCells g size br bc s).Nodup) := by
  simp [is_valid_box, List.all_eq_true, Bool.and_eq_true, decide_eq_true_eq]

theorem is_valid_solution_iff (g : List Int) (size : Nat) :
    is_valid_solution g size = true ↔
      (g.length = size * size ∧
        (∀ row, row < size → is_valid_row g size row = true) ∧
        (∀ col, col < size → is_valid_col g size col = true) ∧
        (∀ br ∈ boxStarts size (usqrt size), ∀ bc ∈ boxStarts size (usqrt size),
          is_valid_box g size br bc (usqrt size) = true)) := by
  simp only [is_valid_solution, List.all_eq_true, Bool.and_eq_true, beq_iff_eq, List.mem_range]
  tauto

theorem valid_solution_length (g : List Int) (size : Nat)
    (h : is_valid_solution g size = true) : g.length = size * size :=
  ((is_valid_solution_iff g size).mp h).1

theorem valid_solution_in_range (g : List Int) (size : Nat)
    (h : is_valid_solution g size = true) :
    ∀ i, i < size * size → 1 ≤ cell g i ∧ cell g i ≤ (size : Int) := by
  intro i hi
  obtain ⟨hlen, hrows, hcols, hboxes⟩ := (is_valid_solution_iff g size).mp h
  have hrow := (is_valid_row_iff g size (i / size)).mp (hrows (i / size) (idx_div_lt i size hi))
  refine hrow.1 (cell g i) ?_
  rw [rowCells]
  refine List.mem_map.mpr ⟨i % size, List.mem_range.mpr (idx_mod_lt i size hi), ?_⟩
  rw [idx_decomp]

theorem valid_solution_complete (g : List Int) (size : Nat)
    (h : is_valid_solution g size = true) : Complete g size := by
  intro i hi
  have := valid_solution_in_range g size h i hi
  omega

theorem valid_solution_no_conflicts (g : List Int) (size : Nat)
    (hs : usqrt size * usqrt size = size)
    (h : is_valid_solution g size = true) : NoConflicts g size := by
  intro i hi j hj hprem
  obtain ⟨hij, hunit, hiz⟩ := hprem
  obtain ⟨hlen, hrows, hcols, hboxes⟩ := (is_valid_solution_iff g size).mp h
  set s := usqrt size with hsdef
  intro heq
  rcases hunit with hrow | hcol | hbox
  · -- same row
    have hnd := ((is_valid_row_iff g size (i / size)).mp
      (hrows (i / size) (idx_div_lt i size hi))).2
    rw [rowCells] at hnd
    have hinj := map_range_injOn hnd (i % size) (idx_mod_lt i size hi)
      (j % size) (idx_mod_lt j size hj)
    have hfi : cell g ((i / size) * size + i % size) = cell g ((i / size) * size + j % size) := by
      rw [idx_decomp, hrow, idx_decomp]
      exact heq
    have := hinj hfi
    apply hij
    have d1 := idx_decomp i size
    have d2 := idx_decomp j size
    rw [← d1, ← d2, hrow, this]
  · -- same column
    have hnd := ((is_valid_col_iff g size (i % size)).mp
      (hcols (i % size) (idx_mod_lt i size hi))).2
    rw [colCells] at hnd
    have hinj := map_range_injOn hnd (i / size) (idx_div_lt i size hi)
      (j / size) (idx_div_lt j size hj)
    have hfi : cell g ((i / size) * size + i % size) = cell g ((j / size) * size + i % size) := by
      rw [idx_decomp]
      conv_rhs => rw [hcol, idx_decomp]
      exact heq
    have := hinj hfi
    apply hij
    have d1 := idx_decomp i size
    have d2 := idx_decomp j size
    rw [← d1, ← d2, hcol, this]
  · -- same box
    obtain ⟨hbr, hbc⟩ := hbox
    have hspos : 0 < s := by
      rcases Nat.eq_zero_or_pos s with h0 | h0
      · exfalso
        rw [h0] at hs
        simp at hs
        rw [← hs] at hi
        simp at hi
      · exact h0
    have hAi : i / size / s < s := idx_div_lt (i / size) s (by rw [hs]; exact idx_div_lt i size hi)
    have hBi : i % size / s < s := idx_div_lt (i % size) s (by rw [hs]; exact idx_mod_lt i size hi)
    have hbrmem : (i / size / s) * s ∈ boxStarts size s := by
      rw [mem_boxStarts]
      constructor
      · have : (i / size / s) * s < s * s := by
          have : (i / size / s) * s ≤ (s - 1) * s := Nat.mul_le_mul_right _ (by omega)
          have h2 : (s - 1) * s < s * s := (Nat.mul_lt_mul_right hspos).mpr (by omega)
          omega
        omega
      · exact Nat.mul_mod_left _ _
    have hbcmem : (i % size / s) * s ∈ boxStarts size s := by
      rw [mem_boxStarts]
      constructor
      · have : (i % size / s) * s < s * s := by
          have : (i % size / s) * s ≤ (s - 1) * s := Nat.mul_le_mul_right _ (by omega)
          have h2 : (s - 1) * s < s * s := (Nat.mul_lt_mul_right hspos).mpr (by omega)
          omega
        omega
      · exact Nat.mul_mod_left _ _
    have hvb := (is_valid_box_iff g size _ _ s).mp (hboxes _ hbrmem _ hbcmem)
    have hnd := hvb.2
    rw [boxCells_eq_map] at hnd
    -- the in-box offset of a position
    have key : ∀ k, k < size * size →
        k / size / s = i / size / s → k % size / s = i % size / s →
        cell g (((i / size / s) * s + (k / size % s)) * size
          + ((i % size / s) * s + (k % size % s))) = cell g k := by
      intro k hk hA hB
      have e1 : (i / size / s) * s + k / size % s = k / size := by
        rw [← hA, Nat.div_add_mod']
      have e2 : (i % size / s) * s + k % size % s = k % size := by
        rw [← hB, Nat.div_add_mod']
      rw [e1, e2, idx_decomp]
    have hinj := map_range_injOn hnd
      ((i / size % s) * s + (i % size % s))
      (by
        have h1 : i / size % s < s := Nat.mod_lt _ hspos
        have h2 : i % size % s < s := Nat.mod_lt _ hspos
        exact rowcol_lt _ _ s h1 h2)
      ((j / size % s) * s + (j % size % s))
      (by
        have h1 : j / size % s < s := Nat.mod_lt _ hspos
        have h2 : j % size % s < s := Nat.mod_lt _ hspos
        exact rowcol_lt _ _ s h1 h2)
    -- evaluate the map at both offsets
    have hmod1 : ((i / size % s) * s + (i % size % s)) / s = i / size % s :=
      rowcol_div _ _ s (Nat.mod_lt _ hspos)
    have hmod2 : ((i / size % s) * s + (i % size % s)) % s = i % size % s :=
      rowcol_mod _ _ s (Nat.mod_lt _ hspos)
    have hmod3 : ((j / size % s) * s + (j % size % s)) / s = j / size % s :=
      rowcol_div _ _ s (Nat.mod_lt _ hspos)
    have hmod4 : ((j / size % s) * s + (j % size % s)) % s = j % size % s :=
      rowcol_mod _ _ s (Nat.mod_lt _ hspos)
    have hfi : cell g (((i / size / s) * s + ((i / size % s) * s + (i % size % s)) / s) * size
          + ((i % size / s) * s + ((i / size % s) * s + (i % size % s)) % s))
        = cell g (((i / size / s) * s + ((j / size % s) * s + (j % size % s)) / s) * size
          + ((i % size / s) * s + ((j / size % s) * s + (j % size % s)) % s)) := by
      rw [hmod1, hmod2, hmod3, hmod4]
      rw [key i hi rfl rfl]
      rw [key j hj hbr.symm hbc.symm]
      exact heq
    have hkeq := hinj hfi
    apply hij
    obtain ⟨ha, hb⟩ := mul_add_inj s _ _ _ _ (Nat.mod_lt _ hspos) (Nat.mod_lt _ hspos) hkeq
    have ei : i / size = j / size := by
      have e1 := Nat.div_add_mod (i / size) s
      have e2 := Nat.div_add_mod (j / size) s
      rw [← e1, ← e2, hbr, ha]
    have ej : i % size = j % size := by
      have e1 := Nat.div_add_mod (i % size) s
      have e2 := Nat.div_add_mod (j % size) s
      rw [← e1, ← e2, hbc, hb]
    rw [← idx_decomp i size, ← idx_decomp j size, ei, ej]

theorem boxstart_decomp (size s b : Nat) (hb : b ∈ boxStarts size s) :
    (b / s) * s = b := by
  obtain ⟨hlt, hmod⟩ := (mem_boxStarts size s b).mp hb
  exact Nat.div_mul_cancel (Nat.dvd_of_mod_eq_zero hmod)

/-- Converse bridge: a complete grid with in-range values and no unit
conflicts passes `is_valid_solution`. -/
theorem is_valid_solution_of (g : List Int) (size : Nat)
    (hs : usqrt size * usqrt size = size)
    (hlen : g.length = size * size)
    (hall : ∀ i, i < size * size → 1 ≤ cell g i ∧ cell g i ≤ (size : Int))
    (hnc : NoConflicts g size) : is_valid_solution g size = true := by
  set s := usqrt size with hsdef
  rw [is_valid_solution_iff]
  refine ⟨hlen, ?_, ?_, ?_⟩
  · -- rows
    intro row hrow
    rw [is_valid_row_iff]
    constructor
    · intro v hv
      obtain ⟨c, hc, rfl⟩ := List.mem_map.mp hv
      exact hall _ (rowcol_lt row c size hrow (List.mem_range.mp hc))
    · rw [rowCells]
      apply map_range_nodup_of_inj
      intro c1 h1 c2 h2 hf
      by_contra hne
      refine hnc (row * size + c1) (rowcol_lt row c1 size hrow h1)
        (row * size + c2) (rowcol_lt row c2 size hrow h2)
        ⟨?_, ?_, ?_⟩ hf
      · intro he
        exact hne (Nat.add_left_cancel he)
      · left
        rw [rowcol_div row c1 size h1, rowcol_div row c2 size h2]
      · have := hall _ (rowcol_lt row c1 size hrow h1)
        omega
  · -- columns
    intro col hcol
    rw [is_valid_col_iff]
    constructor
    · intro v hv
      obtain ⟨r, hr, rfl⟩ := List.mem_map.mp hv
      exact hall _ (rowcol_lt r col size (List.mem_range.mp hr) hcol)
    · rw [colCells]
      apply map_range_nodup_of_inj
      intro r1 h1 r2 h2 hf
      by_contra hne
      refine hnc (r1 * size + col) (rowcol_lt r1 col size h1 hcol)
        (r2 * size + col) (rowcol_lt r2 col size h2 hcol)
        ⟨?_, ?_, ?_⟩ hf
      · intro he
        exact hne (mul_add_inj size r1 col r2 col hcol hcol he).1
      · right
        left
        rw [rowcol_mod r1 col size hcol, rowcol_mod r2 col size hcol]
      · have := hall _ (rowcol_lt r1 col size h1 hcol)
        omega
  · -- boxes
    intro br hbr bc hbc
    obtain ⟨hbrlt, hbrmod⟩ := (mem_boxStarts size s br).mp hbr
    obtain ⟨hbclt, hbcmod⟩ := (mem_boxStarts size s bc).mp hbc
    have hspos : 0 < s := by
      rcases Nat.eq_zero_or_pos s with h0 | h0
      · exfalso
        rw [h0] at hs
        simp at hs
        omega
      · exact h0
    have hq : br / s < s := idx_div_lt br s (by rw [hs]; exact hbrlt)
    have hp : bc / s < s := idx_div_lt bc s (by rw [hs]; exact hbclt)
    have hbrd := boxstart_decomp size s br hbr
    have hbcd := boxstart_decomp size s bc hbc
    have hrowlt : ∀ k, k < s * s → br + k / s < size := by
      intro k hk
      have h1 : k / s < s := idx_div_lt k s hk
      have := rowcol_lt (br / s) (k / s) s hq h1
      rw [← hs, ← hbrd]
      omega
    have hcollt : ∀ k, k < s * s → bc + k % s < size := by
      intro k hk
      have h1 : k % s < s := Nat.mod_lt _ hspos
      have := rowcol_lt (bc / s) (k % s) s hp h1
      rw [← hs, ← hbcd]
      omega
    have hidx : ∀ k, k < s * s → (br + k / s) * size + (bc + k % s) < size * size := by
      intro k hk
      exact rowcol_lt _ _ size (hrowlt k hk) (hcollt k hk)
    rw [is_valid_box_iff]
    constructor
    · intro v hv
      rw [boxCells_eq_map] at hv
      obtain ⟨k, hk, rfl⟩ := List.mem_map.mp hv
      exact hall _ (hidx k (List.mem_range.mp hk))
    · rw [boxCells_eq_map]
      apply map_range_nodup_of_inj
      intro k1 h1 k2 h2 hf
      by_contra hne
      have hd1 : k1 / s < s := idx_div_lt k1 s h1
      have hd2 : k2 / s < s := idx_div_lt k2 s h2
      have hm1 : k1 % s < s := Nat.mod_lt _ hspos
      have hm2 : k2 % s < s := Nat.mod_lt _ hspos
      refine hnc ((br + k1 / s) * size + (bc + k1 % s)) (hidx k1 h1)
        ((br + k2 / s) * size + (bc + k2 % s)) (hidx k2 h2)
        ⟨?_, ?_, ?_⟩ hf
      · intro he
        obtain ⟨ha, hb⟩ := mul_add_inj size _ _ _ _ (hcollt k1 h1) (hcollt k2 h2) he
        apply hne
        have hda : k1 / s = k2 / s := by omega
        have hdb : k1 % s = k2 % s := by omega
        rw [← Nat.div_add_mod' k1 s, ← Nat.div_add_mod' k2 s, hda, hdb]
      · right
        right
        constructor
        · rw [rowcol_div _ _ size (hcollt k1 h1), rowcol_div _ _ size (hcollt k2 h2)]
          conv_lhs => rw [← hbrd]
          conv_rhs => rw [← hbrd]
          rw [rowcol_div (br / s) (k1 / s) s hd1, rowcol_div (br / s) (k2 / s) s hd2]
        · rw [rowcol_mod _ _ size (hcollt k1 h1), rowcol_mod _ _ size (hcollt k2 h2)]
          conv_lhs => rw [← hbcd]
          conv_rhs => rw [← hbcd]
          rw [rowcol_div (bc / s) (k1 % s) s hm1, rowcol_div (bc / s) (k2 % s) s hm2]
      · have := hall _ (hidx k1 h1)
        omega

end ValidityBridge

section PlacementLemmas

theorem sameUnit_symm (size s i j : Nat) (h : sameUnit size s i j) :
    sameUnit size s j i := by
  rcases h with h | h | ⟨h1, h2⟩
  · exact Or.inl h.symm
  · exact Or.inr (Or.inl h.symm)
  · exact Or.inr (Or.inr ⟨h1.symm, h2.symm⟩)

theorem is_valid_placement_scan (g : List Int) (size row col : Nat) (num : Int) :
    is_valid_placement g size row col num = true ↔
      ((∀ c, c < size → cell g (row * size + c) ≠ num) ∧
       (∀ r, r < size → cell g (r * size + col) ≠ num) ∧
       (∀ dr, dr < usqrt size → ∀ dc, dc < usqrt size →
         cell g (((row / usqrt size) * usqrt size + dr) * size
           + ((col / usqrt size) * usqrt size + dc)) ≠ num)) := by
  simp only [is_valid_placement, Bool.and_eq_true, List.all_eq_true, List.mem_range,
    Bool.not_eq_true', beq_eq_false_iff_ne]
  tauto

/-- The full characterization of `is_valid_placement`: `num` is absent
from every cell sharing a unit with `(row, col)`. -/
theorem is_valid_placement_iff (g : List Int) (size row col : Nat) (num : Int)
    (hs : usqrt size * usqrt size = size) (hrow : row < size) (hcol : col < size) :
    is_valid_placement g size row col num = true ↔
      ∀ j, j < size * size → sameUnit size (usqrt size) j (row * size + col) →
        cell g j ≠ num := by
  set s := usqrt size with hsdef
  have hspos : 0 < s := by
    rcases Nat.eq_zero_or_pos s with h0 | h0
    · exfalso
      rw [h0] at hs
      simp at hs
      omega
    · exact h0
  rw [is_valid_placement_scan]
  constructor
  · rintro ⟨hr, hc, hb⟩ j hj hu
    rcases hu with hu | hu | ⟨hu1, hu2⟩
    · rw [rowcol_div row col size hcol] at hu
      have : j = row * size + j % size := by
        conv_lhs => rw [← idx_decomp j size]
        rw [hu]
      rw [this]
      exact hr (j % size) (idx_mod_lt j size hj)
    · rw [rowcol_mod row col size hcol] at hu
      have : j = (j / size) * size + col := by
        conv_lhs => rw [← idx_decomp j size]
        rw [hu]
      rw [this]
      exact hc (j / size) (idx_div_lt j size hj)
    · rw [rowcol_div row col size hcol] at hu1
      rw [rowcol_mod row col size hcol] at hu2
      have e1 : (row / s) * s + j / size % s = j / size := by
        rw [← hu1, Nat.div_add_mod']
      have e2 : (col / s) * s + j % size % s = j % size := by
        rw [← hu2, Nat.div_add_mod']
      have : j = ((row / s) * s + j / size % s) * size + ((col / s) * s + j % size % s) := by
        rw [e1, e2, idx_decomp]
      rw [this]
      exact hb (j / size % s) (Nat.mod_lt _ hspos) (j % size % s) (Nat.mod_lt _ hspos)
  · intro hall
    refine ⟨?_, ?_, ?_⟩
    · intro c hcs
      refine hall (row * size + c) (rowcol_lt row c size hrow hcs) ?_
      left
      rw [rowcol_div row c size hcs, rowcol_div row col size hcol]
    · intro r hrs
      refine hall (r * size + col) (rowcol_lt r col size hrs hcol) ?_
      right
      left
      rw [rowcol_mod r col size hcol, rowcol_mod row col size hcol]
    · intro dr hdr dc hdc
      have hrq : row / s < s := idx_div_lt row s (by rw [hs]; exact hrow)
      have hcq : col / s < s := idx_div_lt col s (by rw [hs]; exact hcol)
      have hrlt : (row / s) * s + dr < size := by
        rw [← hs]
        exact rowcol_lt (row / s) dr s hrq hdr
      have hclt : (col / s) * s + dc < size := by
        rw [← hs]
        exact rowcol_lt (col / s) dc s hcq hdc
      refine hall _ (rowcol_lt _ _ size hrlt hclt) ?_
      right
      right
      constructor
      · rw [rowcol_div _ _ size hclt, rowcol_div row col size hcol]
        rw [rowcol_div (row / s) dr s hdr]
      · rw [rowcol_mod _ _ size hclt, rowcol_mod row col size hcol]
        rw [rowcol_div (col / s) dc s hdc]

/-- A valid placement into an empty in-range cell preserves the
no-conflict invariant. -/
theorem noConflicts_set (g : List Int) (size cp : Nat) (num : Int)
    (hs : usqrt size * usqrt size = size) (hlen : g.length = size * size)
    (hcp : cp < size * size) (hcell : cell g cp = 0) (hnum : 1 ≤ num)
    (hnc : NoConflicts g size)
    (hv : is_valid_placement g size (cp / size) (cp % size) num = true) :
    NoConflicts (g.set cp num) size := by
  have hiff := (is_valid_placement_iff g size (cp / size) (cp % size) num hs
    (idx_div_lt cp size hcp) (idx_mod_lt cp size hcp)).mp hv
  rw [idx_decomp] at hiff
  intro i hi j hj hprem
  obtain ⟨hij, hunit, hiz⟩ := hprem
  by_cases hicp : i = cp
  · have hjcp : j ≠ cp := by
      intro he
      exact hij (by rw [hicp, he])
    rw [hicp] at hiz ⊢
    rw [cell_set_ne g cp j num (fun he => hjcp he.symm)]
    rw [cell_set_self g cp num (by omega)]
    intro he
    refine hiff j hj ?_ he.symm
    have hu := sameUnit_symm size (usqrt size) i j hunit
    rw [hicp] at hu
    exact hu
  · rw [cell_set_ne g cp i num (fun he => hicp he.symm)] at hiz ⊢
    by_cases hjcp : j = cp
    · rw [hjcp, cell_set_self g cp num (by omega)]
      intro he
      have hu : sameUnit size (usqrt size) i cp := by
        rw [← hjcp]
        exact hunit
      exact hiff i hi hu he
    · rw [cell_set_ne g cp j num (fun he => hjcp he.symm)]
      exact hnc i hi j hj ⟨hij, hunit, hiz⟩

/-- A valid placement into an empty cell preserves in-range values. -/
theorem inRange_set (g : List Int) (size cp : Nat) (num : Int)
    (hnum1 : 1 ≤ num) (hnum2 : num ≤ (size : Int))
    (hall : ∀ i, i < size * size → cell g i ≠ 0 → 1 ≤ cell g i ∧ cell g i ≤ (size : Int)) :
    ∀ i, i < size * size → cell (g.set cp num) i ≠ 0 →
      1 ≤ cell (g.set cp num) i ∧ cell (g.set cp num) i ≤ (size : Int) := by
  intro i hi hiz
  by_cases hicp : cp = i
  · subst hicp
    by_cases hl : cp < g.length
    · rw [cell_set_self g cp num hl]
      exact ⟨hnum1, hnum2⟩
    · rw [List.set_eq_of_length_le (by omega)] at hiz ⊢
      exact hall cp hi hiz
  · rw [cell_set_ne g cp i num hicp] at hiz ⊢
    exact hall i hi hiz

end PlacementLemmas

section CheckConstraintsLemmas

theorem check_constraints_scan (g : List Int) (size row col : Nat) (value : Int) :
    check_constraints g size row col value = true ↔
      ((1 ≤ value ∧ value ≤ (size : Int)) ∧
       (∀ c, c < size → c ≠ col → cell g (row * size + c) ≠ value) ∧
       (∀ r, r < size → r ≠ row → cell g (r * size + col) ≠ value) ∧
       (∀ dr, dr < usqrt size → ∀ dc, dc < usqrt size →
         ¬((row / usqrt size) * usqrt size + dr = row ∧
           (col / usqrt size) * usqrt size + dc = col) →
         cell g (((row / usqrt size) * usqrt size + dr) * size
           + ((col / usqrt size) * usqrt size + dc)) ≠ value)) := by
  rw [check_constraints]
  by_cases hr : value < 1 ∨ (size : Int) < value
  · rw [if_pos (by simpa using hr)]
    constructor
    · intro h
      simp at h
    · rintro ⟨⟨h1, h2⟩, _⟩
      exfalso
      omega
  · rw [if_neg (by simpa using hr)]
    push_neg at hr
    simp only [Bool.and_eq_true, List.all_eq_true, List.mem_range, Bool.not_eq_true',
      Bool.and_eq_false_iff, bne_eq_false_iff_eq, beq_eq_false_iff_ne,
      Bool.or_eq_false_iff, Bool.not_eq_false', beq_iff_eq]
    constructor
    · rintro ⟨⟨ha, hb⟩, hc⟩
      refine ⟨⟨hr.1, hr.2⟩, ?_, ?_, ?_⟩
      · intro c hcs hne
        rcases ha c hcs with h | h
        · exact absurd h hne
        · exact h
      · intro r hrs hne
        rcases hb r hrs with h | h
        · exact absurd h hne
        · exact h
      · intro dr hdr dc hdc hne
        rcases hc dr hdr dc hdc with h | h
        · exact absurd h hne
        · exact h
    · rintro ⟨_, ha, hb, hc⟩
      refine ⟨⟨?_, ?_⟩, ?_⟩
      · intro c hcs
        by_cases hce : c = col
        · exact Or.inl hce
        · exact Or.inr (ha c hcs hce)
      · intro r hrs
        by_cases hre : r = row
        · exact Or.inl hre
        · exact Or.inr (hb r hrs hre)
      · intro dr hdr dc hdc
        by_cases he : (row / usqrt size) * usqrt size + dr = row ∧
            (col / usqrt size) * usqrt size + dc = col
        · exact Or.inl he
        · exact Or.inr (hc dr hdr dc hdc he)

/-- The spec-level characterization of `check_constraints`: true exactly
when `value` is a digit in `1..=size` and no other cell sharing a unit
with `(row, col)` holds `value`. -/
theorem check_constraints_iff (g : List Int) (size row col : Nat) (value : Int)
    (hs : usqrt size * usqrt size = size) (hrow : row < size) (hcol : col < size) :
    check_constraints g size row col value = true ↔
      (1 ≤ value ∧ value ≤ (size : Int) ∧
        ∀ j, j < size * size → j ≠ row * size + col →
          sameUnit size (usqrt size) j (row * size + col) → cell g j ≠ value) := by
  set s := usqrt size with hsdef
  have hspos : 0 < s := by
    rcases Nat.eq_zero_or_pos s with h0 | h0
    · exfalso
      rw [h0] at hs
      simp at hs
      omega
    · exact h0
  rw [check_constraints_scan]
  constructor
  · rintro ⟨⟨h1, h2⟩, ha, hb, hc⟩
    refine ⟨h1, h2, ?_⟩
    intro j hj hjne hu
    rcases hu with hu | hu | ⟨hu1, hu2⟩
    · rw [rowcol_div row col size hcol] at hu
      have hje : j = row * size + j % size := by
        conv_lhs => rw [← idx_decomp j size]
        rw [hu]
      have hcne : j % size ≠ col := by
        intro he
        apply hjne
        rw [hje, he]
      rw [hje]
      exact ha (j % size) (idx_mod_lt j size hj) hcne
    · rw [rowcol_mod row col size hcol] at hu
      have hje : j = (j / size) * size + col := by
        conv_lhs => rw [← idx_decomp j size]
        rw [hu]
      have hrne : j / size ≠ row := by
        intro he
        apply hjne
        rw [hje, he]
      rw [hje]
      exact hb (j / size) (idx_div_lt j size hj) hrne
    · rw [rowcol_div row col size hcol] at hu1
      rw [rowcol_mod row col size hcol] at hu2
      have e1 : (row / s) * s + j / size % s = j / size := by
        rw [← hu1, Nat.div_add_mod']
      have e2 : (col / s) * s + j % size % s = j % size := by
        rw [← hu2, Nat.div_add_mod']
      have hje : j = ((row / s) * s + j / size % s) * size
          + ((col / s) * s + j % size % s) := by
        rw [e1, e2, idx_decomp]
      have hne : ¬((row / s) * s + j / size % s = row ∧
          (col / s) * s + j % size % s = col) := by
        rintro ⟨hx, hy⟩
        apply hjne
        rw [hje, hx, hy]
      rw [hje]
      exact hc (j / size % s) (Nat.mod_lt _ hspos) (j % size % s) (Nat.mod_lt _ hspos) hne
  · rintro ⟨h1, h2, hall⟩
    refine ⟨⟨h1, h2⟩, ?_, ?_, ?_⟩
    · intro c hcs hne
      refine hall (row * size + c) (rowcol_lt row c size hrow hcs) ?_ ?_
      · intro he
        exact hne (mul_add_inj size row c row col hcs hcol he).2
      · left
        rw [rowcol_div row c size hcs, rowcol_div row col size hcol]
    · intro r hrs hne
      refine hall (r * size + col) (rowcol_lt r col size hrs hcol) ?_ ?_
      · intro he
        exact hne (mul_add_inj size r col row col hcol hcol he).1
      · right
        left
        rw [rowcol_mod r col size hcol, rowcol_mod row col size hcol]
    · intro dr hdr dc hdc hne
      have hrq : row / s < s := idx_div_lt row s (by rw [hs]; exact hrow)
      have hcq : col / s < s := idx_div_lt col s (by rw [hs]; exact hcol)
      have hrlt : (row / s) * s + dr < size := by
        rw [← hs]
        exact rowcol_lt (row / s) dr s hrq hdr
      have hclt : (col / s) * s + dc < size := by
        rw [← hs]
        exact rowcol_lt (col / s) dc s hcq hdc
      refine hall _ (rowcol_lt _ _ size hrlt hclt) ?_ ?_
      · intro he
        obtain ⟨hx, hy⟩ := mul_add_inj size _ _ row col hclt hcol he
        exact hne ⟨hx, hy⟩
      · right
        right
        constructor
        · rw [rowcol_div _ _ size hclt, rowcol_div row col size hcol]
          rw [rowcol_div (row / s) dr s hdr]
        · rw [rowcol_mod _ _ size hclt, rowcol_mod row col size hcol]
          rw [rowcol_div (col / s) dc s hdc]

end CheckConstraintsLemmas

section AllFillsLemmas

theorem allFills_of_ge (g : List Int) (size pos : Nat) (h : size * size ≤ pos) :
    allFills g size pos = [g] := by
  rw [allFills]
  have hp : ¬ pos < size * size := by omega
  simp [hp]

theorem allFills_skip (g : List Int) (size pos : Nat) (hp : pos < size * size)
    (hc : cell g pos ≠ 0) : allFills g size pos = allFills g size (pos + 1) := by
  rw [allFills]
  simp [hp, hc]

theorem allFills_split (g : List Int) (size pos : Nat) (hp : pos < size * size)
    (hc : cell g pos = 0) :
    allFills g size pos
      = (intRange1 size).flatMap (fun v => allFills (g.set pos v) size (pos + 1)) := by
  rw [allFills]
  simp [hp, hc]

theorem allFills_find_empty (g : List Int) (size : Nat) :
    ∀ pos, allFills g size pos = allFills g size (find_empty g (size * size) pos) := by
  intro pos
  rw [find_empty]
  by_cases hp : pos < size * size
  · by_cases hc : cell g pos != 0
    · simp only [hp, dite_true, hc, if_true]
      rw [allFills_skip g size pos hp (by simpa using hc)]
      exact allFills_find_empty g size (pos + 1)
    · simp [hp, hc]
  · simp [hp]
termination_by pos => size * size - pos

theorem allFills_complete (g : List Int) (size : Nat) :
    ∀ pos, (∀ k, pos ≤ k → k < size * size → cell g k ≠ 0) →
      allFills g size pos = [g] := by
  intro pos hall
  by_cases hp : pos < size * size
  · rw [allFills_skip g size pos hp (hall pos (by omega) hp)]
    exact allFills_complete g size (pos + 1) (fun k hk1 hk2 => hall k (by omega) hk2)
  · exact allFills_of_ge g size pos (by omega)
termination_by pos => size * size - pos

theorem allFills_agree (g : List Int) (size : Nat) :
    ∀ pos f, f ∈ allFills g size pos → ∀ i, cell g i ≠ 0 → cell f i = cell g i := by
  intro pos f hf i hi
  by_cases hp : pos < size * size
  · by_cases hc : cell g pos = 0
    · rw [allFills_split g size pos hp hc] at hf
      obtain ⟨v, hv, hfv⟩ := List.mem_flatMap.mp hf
      have hipos : i ≠ pos := by
        intro he
        rw [he] at hi
        exact hi hc
      have hset : cell (g.set pos v) i ≠ 0 := by
        rw [cell_set_ne g pos i v (fun he => hipos he.symm)]
        exact hi
      have := allFills_agree (g.set pos v) size (pos + 1) f hfv i hset
      rw [this, cell_set_ne g pos i v (fun he => hipos he.symm)]
    · rw [allFills_skip g size pos hp hc] at hf
      exact allFills_agree g size (pos + 1) f hf i hi
  · rw [allFills_of_ge g size pos (by omega)] at hf
    simp at hf
    rw [hf]
termination_by pos => size * size - pos

theorem length_filter_flatMap {α β : Type} (p : β → Bool) (fn : α → List β) :
    ∀ (l : List α),
      (((l.flatMap fn).filter p).length : Nat)
        = (l.map (fun a => ((fn a).filter p).length)).sum
  | [] => rfl
  | a :: rest => by
      rw [List.flatMap_cons, List.filter_append, List.length_append, List.map_cons,
        List.sum_cons, length_filter_flatMap p fn rest]

theorem filter_length_zero {α : Type} (p : α → Bool) (l : List α)
    (h : ∀ x ∈ l, p x = false) : (l.filter p).length = 0 := by
  rw [List.filter_eq_nil_iff.mpr (fun x hx => by simp [h x hx])]
  rfl

/-- If the grid already holds a same-unit conflict between two filled
cells, no fill of it passes `is_valid_solution`. -/
theorem completions_zero_of_conflict (g : List Int) (size : Nat)
    (hs : usqrt size * usqrt size = size)
    (i j : Nat) (hi : i < size * size) (hj : j < size * size) (hij : i ≠ j)
    (hu : sameUnit size (usqrt size) i j)
    (hci : cell g i ≠ 0) (hcj : cell g j ≠ 0) (hceq : cell g i = cell g j) :
    ∀ pos, ((allFills g size pos).filter (fun x => is_valid_solution x size)).length = 0 := by
  intro pos
  apply filter_length_zero
  intro f hf
  by_contra hval
  have hvt : is_valid_solution f size = true := by
    rcases Bool.eq_false_or_eq_true (is_valid_solution f size) with h | h
    · exact h
    · exact absurd h hval
  have hnc := valid_solution_no_conflicts f size hs hvt
  have e1 := allFills_agree g size pos f hf i hci
  have e2 := allFills_agree g size pos f hf j hcj
  refine hnc i hi j hj ⟨hij, hu, ?_⟩ ?_
  · rw [e1]
    exact hci
  · rw [e1, e2]
    exact hceq

end AllFillsLemmas

section CountCorrect

theorem completions_zero_of_invalid (g : List Int) (size cp : Nat) (v : Int)
    (hs : usqrt size * usqrt size = size) (hlen : g.length = size * size)
    (hcp : cp < size * size) (hcell : cell g cp = 0) (hv1 : 1 ≤ v)
    (hinv : is_valid_placement g size (cp / size) (cp % size) v = false) :
    ∀ pos, ((allFills (g.set cp v) size pos).filter
      (fun x => is_valid_solution x size)).length = 0 := by
  intro pos
  have hnall : ¬ ∀ j, j < size * size →
      sameUnit size (usqrt size) j ((cp / size) * size + cp % size) → cell g j ≠ v := by
    rw [← is_valid_placement_iff g size (cp / size) (cp % size) v hs
      (idx_div_lt cp size hcp) (idx_mod_lt cp size hcp)]
    simp [hinv]
  push_neg at hnall
  obtain ⟨j, hj, hju, hjv⟩ := hnall
  rw [idx_decomp] at hju
  have hjcp : j ≠ cp := by
    intro he
    rw [he, hcell] at hjv
    omega
  refine completions_zero_of_conflict (g.set cp v) size hs cp j hcp hj
    (fun he => hjcp he.symm) (sameUnit_symm size (usqrt size) j cp hju) ?_ ?_ ?_ pos
  · rw [cell_set_self g cp v (by omega)]
    omega
  · rw [cell_set_ne g cp j v (fun he => hjcp he.symm)]
    rw [hjv]
    omega
  · rw [cell_set_self g cp v (by omega), cell_set_ne g cp j v (fun he => hjcp he.symm), hjv]

theorem countLoop_spec (size m : Nat) (hm : 1 ≤ m)
    (hs : usqrt size * usqrt size = size) (g : List Int) (cp : Nat)
    (hlen : g.length = size * size) (hcp : cp < size * size)
    (hcell : cell g cp = 0)
    (hrec : ∀ v : Int, 1 ≤ v → v ≤ (size : Int) →
      is_valid_placement g size (cp / size) (cp % size) v = true →
      ((count_solutions_recursive (g.set cp v) size (cp + 1) m).2
          ≤ ((allFills (g.set cp v) size (cp + 1)).filter
            (fun x => is_valid_solution x size)).length ∧
        ((count_solutions_recursive (g.set cp v) size (cp + 1) m).2 < m →
          (count_solutions_recursive (g.set cp v) size (cp + 1) m).2
            = ((allFills (g.set cp v) size (cp + 1)).filter
              (fun x => is_valid_solution x size)).length))) :
    ∀ (nums : List Int) (count : Nat), count < m → (∀ v ∈ nums, 1 ≤ v ∧ v ≤ (size : Int)) →
      ((countLoop (fun g2 => count_solutions_recursive g2 size (cp + 1) m)
          cp size (cp / size) (cp % size) m g count nums).2
        ≤ count + (nums.map (fun v => ((allFills (g.set cp v) size (cp + 1)).filter
            (fun x => is_valid_solution x size)).length)).sum ∧
       ((countLoop (fun g2 => count_solutions_recursive g2 size (cp + 1) m)
          cp size (cp / size) (cp % size) m g count nums).2 < m →
        (countLoop (fun g2 => count_solutions_recursive g2 size (cp + 1) m)
          cp size (cp / size) (cp % size) m g count nums).2
          = count + (nums.map (fun v => ((allFills (g.set cp v) size (cp + 1)).filter
              (fun x => is_valid_solution x size)).length)).sum))
  | [], count, hcount, _ => by
      constructor
      · simp [countLoop]
      · intro _
        simp [countLoop]
  | v :: rest, count, hcount, hmem => by
      have hv := hmem v (List.mem_cons_self v rest)
      have hrestmem : ∀ w ∈ rest, 1 ≤ w ∧ w ≤ (size : Int) :=
        fun w hw => hmem w (List.mem_cons_of_mem v hw)
      rw [countLoop]
      by_cases hval : is_valid_placement g size (cp / size) (cp % size) v = true
      · rw [if_pos hval]
        have hfst : (count_solutions_recursive (g.set cp v) size (cp + 1) m).1
            = g.set cp v := count_solutions_recursive_fst _ size _ m
        have hrestore : (count_solutions_recursive (g.set cp v) size (cp + 1) m).1.set cp 0
            = g := by
          rw [hfst, cell_set_set]
          calc g.set cp 0 = g.set cp (cell g cp) := by rw [hcell]
            _ = g := set_cell_self g cp
        have hspec := hrec v hv.1 hv.2 hval
        rw [List.map_cons, List.sum_cons]
        by_cases hstop : m ≤ count + (count_solutions_recursive (g.set cp v) size (cp + 1) m).2
        · rw [if_pos hstop]
          constructor
          · have := hspec.1
            omega
          · intro hlt
            exfalso
            simp only [] at hlt
            omega
        · rw [if_neg hstop, hrestore]
          have hih := countLoop_spec size m hm hs g cp hlen hcp hcell hrec rest
            (count + (count_solutions_recursive (g.set cp v) size (cp + 1) m).2)
            (by omega) hrestmem
          have hceq := hspec.2 (by omega)
          constructor
          · have := hih.1
            omega
          · intro hlt
            have := hih.2 hlt
            omega
      · rw [if_neg hval]
        have hzero : ((allFills (g.set cp v) size (cp + 1)).filter
            (fun x => is_valid_solution x size)).length = 0 :=
          completions_zero_of_invalid g size cp v hs hlen hcp hcell hv.1
            (by rcases Bool.eq_false_or_eq_true
                  (is_valid_placement g size (cp / size) (cp % size) v) with h | h
                · exact absurd h hval
                · exact h) (cp + 1)
        have hih := countLoop_spec size m hm hs g cp hlen hcp hcell hrec rest
          count hcount hrestmem
        rw [List.map_cons, List.sum_cons, hzero]
        constructor
        · have := hih.1
          omega
        · intro hlt
          have := hih.2 hlt
          omega

theorem count_rec_spec (size m : Nat) (hm : 1 ≤ m)
    (hs : usqrt size * usqrt size = size) :
    ∀ (n : Nat) (g : List Int) (pos : Nat), size * size ≤ pos + n →
      g.length = size * size → InRangeCells g size → NoConflicts g size →
      (∀ k, k < pos → cell g k ≠ 0) →
      ((count_solutions_recursive g size pos m).2
          ≤ ((allFills g size pos).filter (fun x => is_valid_solution x size)).length ∧
        ((count_solutions_recursive g size pos m).2 < m →
          (count_solutions_recursive g size pos m).2
            = ((allFills g size pos).filter (fun x => is_valid_solution x size)).length))
  | n, g, pos, hn, hlen, hrange, hnc, hpre => by
      rw [count_solutions_recursive]
      have hge := find_empty_ge g (size * size) pos
      by_cases hcp : size * size ≤ find_empty g (size * size) pos
      · rw [dif_pos hcp]
        have hcomp : ∀ k, k < size * size → cell g k ≠ 0 := by
          intro k hk
          by_cases hkpos : k < pos
          · exact hpre k hkpos
          · exact find_empty_skipped g (size * size) pos k (by omega) (by omega)
        have hfull : allFills g size pos = [g] :=
          allFills_complete g size pos (fun k h1 h2 => hcomp k h2)
        have hval : is_valid_solution g size = true := by
          refine is_valid_solution_of g size hs hlen ?_ hnc
          intro i hi
          exact hrange i hi (hcomp i hi)
        rw [hfull]
        simp [hval, hm]
      · rw [dif_neg hcp]
        set cp := find_empty g (size * size) pos with hcpdef
        have hcplt : cp < size * size := by omega
        have hcell : cell g cp = 0 := find_empty_cell g (size * size) pos (by omega)
        have hprecp : ∀ k, k < cp + 1 → cell (g.set cp 0) k ≠ 0 → True := fun _ _ _ => trivial
        match n, hn with
        | Nat.zero, hn =>
          exfalso
          have h' : size * size ≤ pos := by simpa using hn
          omega
        | Nat.succ n', hn =>
          have hrec : ∀ v : Int, 1 ≤ v → v ≤ (size : Int) →
              is_valid_placement g size (cp / size) (cp % size) v = true →
              ((count_solutions_recursive (g.set cp v) size (cp + 1) m).2
                  ≤ ((allFills (g.set cp v) size (cp + 1)).filter
                    (fun x => is_valid_solution x size)).length ∧
                ((count_solutions_recursive (g.set cp v) size (cp + 1) m).2 < m →
                  (count_solutions_recursive (g.set cp v) size (cp + 1) m).2
                    = ((allFills (g.set cp v) size (cp + 1)).filter
                      (fun x => is_valid_solution x size)).length)) := by
            intro v hv1 hv2 hval
            refine count_rec_spec size m hm hs n' (g.set cp v) (cp + 1) (by omega)
              (by rw [length_set, hlen]) ?_ ?_ ?_
            · exact inRange_set g size cp v hv1 hv2 hrange
            · exact noConflicts_set g size cp v hs hlen hcplt hcell hv1 hnc hval
            · intro k hk
              by_cases hkcp : k = cp
              · rw [hkcp, cell_set_self g cp v (by omega)]
                omega
              · rw [cell_set_ne g cp k v (fun he => hkcp he.symm)]
                by_cases hkpos : k < pos
                · exact hpre k hkpos
                · exact find_empty_skipped g (size * size) pos k (by omega) (by omega)
          have hloop := countLoop_spec size m hm hs g cp hlen hcplt hcell hrec
            (intRange1 size) 0 (by omega)
            (fun v hv => (mem_intRange1 size v).mp hv)
          have hsum : ((allFills g size pos).filter
              (fun x => is_valid_solution x size)).length
              = ((intRange1 size).map (fun v => ((allFills (g.set cp v) size (cp + 1)).filter
                  (fun x => is_valid_solution x size)).length)).sum := by
            rw [allFills_find_empty g size pos, ← hcpdef,
              allFills_split g size cp hcplt hcell,
              length_filter_flatMap]
          rw [hsum]
          constructor
          · have := hloop.1
            omega
          · intro hlt
            have := hloop.2 hlt
            omega

/-- `count_solutions` versus the true number of completions: never larger,
and exact below the cutoff 2. -/
theorem count_solutions_spec (g : List Int) (size : Nat)
    (hs : usqrt size * usqrt size = size) (hlen : g.length = size * size)
    (hrange : InRangeCells g size) (hnc : NoConflicts g size) :
    count_solutions g size ≤ numCompletions g size ∧
      (count_solutions g size < 2 → count_solutions g size = numCompletions g size) := by
  have := count_rec_spec size 2 (by omega) hs (size * size) g 0 (by omega) hlen hrange hnc
    (fun k hk => absurd hk (by omega))
  exact this

end CountCorrect

section PatternLemmas

theorem cell_map_range (f : Nat → Int) (n i : Nat) (h : i < n) :
    cell ((List.range n).map f) i = f i := by
  rw [cell, List.getD_eq_getElem?_getD, List.getElem?_map, List.getElem?_range h]
  rfl

theorem cell_mem (l : List Int) (i : Nat) (h : i < l.length) :
    cell l i ∈ l := by
  rw [cell, List.getD_eq_getElem?_getD, List.getElem?_eq_getElem h]
  exact List.getElem_mem h

theorem cell_nodup_inj (l : List Int) (hnd : l.Nodup) (i j : Nat)
    (hi : i < l.length) (hj : j < l.length) (h : cell l i = cell l j) : i = j := by
  rw [cell, cell, List.getD_eq_getElem?_getD, List.getD_eq_getElem?_getD,
    List.getElem?_eq_getElem hi, List.getElem?_eq_getElem hj] at h
  simp only [Option.getD_some] at h
  have := List.nodup_iff_injective_get.mp hnd
    (show l.get ⟨i, hi⟩ = l.get ⟨j, hj⟩ by simpa using h)
  simpa using this

theorem add_mod_right_inj (n t c1 c2 : Nat) (h1 : c1 < n) (h2 : c2 < n)
    (h : (c1 + t) % n = (c2 + t) % n) : c1 = c2 := by
  have hmod : c1 % n = c2 % n := Nat.ModEq.add_right_cancel' t h
  rw [Nat.mod_eq_of_lt h1, Nat.mod_eq_of_lt h2] at hmod
  exact hmod

theorem add_mod_left_inj (n c t1 t2 : Nat) (h1 : t1 < n) (h2 : t2 < n)
    (h : (c + t1) % n = (c + t2) % n) : t1 = t2 := by
  rw [Nat.add_comm c t1, Nat.add_comm c t2] at h
  exact add_mod_right_inj n c t1 t2 h1 h2 h

/-- The shift of the pattern construction, written out:
`(row * s + row / s) % size = (row % s) * s + row / s` for `row < size = s * s`. -/
theorem shift_formula (size s row : Nat) (hs : s * s = size) (hrow : row < size) :
    (row * s + row / s) % size = (row % s) * s + row / s := by
  have hspos : 0 < s := by
    rcases Nat.eq_zero_or_pos s with h0 | h0
    · exfalso
      rw [h0] at hs
      simp at hs
      omega
    · exact h0
  set a := row / s with hadef
  set b := row % s with hbdef
  have ha : a < s := by
    rw [hadef]
    exact idx_div_lt row s (by rw [hs]; exact hrow)
  have hb : b < s := by
    rw [hbdef]
    exact Nat.mod_lt _ hspos
  have hab : a * s + b = row := Nat.div_add_mod' row s
  have hexp : row * s + a = a * size + (b * s + a) := by
    have h1 : row * s = (a * s + b) * s := by rw [hab]
    rw [h1, ← hs]
    ring
  rw [hexp, Nat.add_comm (a * size), Nat.add_mul_mod_self_right]
  exact Nat.mod_eq_of_lt (by rw [← hs]; exact rowcol_lt b a s hb ha)

theorem shift_lt (size s row : Nat) (hsz : 0 < size) :
    (row * s + row / s) % size < size := Nat.mod_lt _ hsz

theorem shift_inj (size s : Nat) (hs : s * s = size) (r1 r2 : Nat)
    (h1 : r1 < size) (h2 : r2 < size)
    (h : (r1 * s + r1 / s) % size = (r2 * s + r2 / s) % size) : r1 = r2 := by
  have hspos : 0 < s := by
    rcases Nat.eq_zero_or_pos s with h0 | h0
    · exfalso
      rw [h0] at hs
      simp at hs
      omega
    · exact h0
  rw [shift_formula size s r1 hs h1, shift_formula size s r2 hs h2] at h
  obtain ⟨ha, hb⟩ := mul_add_inj s _ _ _ _
    (idx_div_lt r1 s (by rw [hs]; exact h1)) (idx_div_lt r2 s (by rw [hs]; exact h2)) h
  rw [← Nat.div_add_mod' r1 s, ← Nat.div_add_mod' r2 s, ha, hb]

/-- Validity of the shift-pattern grid, for any base row that is a
permutation of `1..=size` and any perfect-square size. -/
theorem pattern_grid_valid (size : Nat) (base : List Int)
    (hs : usqrt size * usqrt size = size)
    (hblen : base.length = size) (hbnodup : base.Nodup)
    (hbmem : ∀ v ∈ base, 1 ≤ v ∧ v ≤ (size : Int)) :
    is_valid_solution ((List.range (size * size)).map (fun i =>
      cell base ((i % size + (i / size * usqrt size + i / size / usqrt size) % size) % size)))
      size = true := by
  set s := usqrt size with hsdef
  rcases Nat.eq_zero_or_pos size with hz | hszpos
  · rw [hz]
    rfl
  have hspos : 0 < s := by
    rcases Nat.eq_zero_or_pos s with h0 | h0
    · exfalso
      rw [h0] at hs
      simp at hs
      omega
    · exact h0
  have hidxlt : ∀ k : Nat, k % size < base.length := by
    intro k
    rw [hblen]
    exact Nat.mod_lt _ hszpos
  have hmem : ∀ k : Nat, 1 ≤ cell base (k % size) ∧ cell base (k % size) ≤ (size : Int) :=
    fun k => hbmem _ (cell_mem base _ (hidxlt k))
  have hinj : ∀ a b : Nat, cell base (a % size) = cell base (b % size) →
      a % size = b % size :=
    fun a b h => cell_nodup_inj base hbnodup _ _ (hidxlt a) (hidxlt b) h
  have hFval : ∀ row c, row < size → c < size →
      cell base (((row * size + c) % size
          + ((row * size + c) / size * s + (row * size + c) / size / s) % size) % size)
        = cell base ((c + (row * s + row / s) % size) % size) := by
    intro row c hrow hc
    rw [rowcol_div row c size hc, rowcol_mod row c size hc]
  rw [is_valid_solution_iff]
  refine ⟨by simp, ?_, ?_, ?_⟩
  · -- rows
    intro row hrow
    rw [is_valid_row_iff]
    constructor
    · intro v hv
      rw [rowCells] at hv
      obtain ⟨c, hcr, rfl⟩ := List.mem_map.mp hv
      have hc := List.mem_range.mp hcr
      rw [cell_map_range _ _ _ (rowcol_lt row c size hrow hc), hFval row c hrow hc]
      exact hmem _
    · rw [rowCells]
      apply map_range_nodup_of_inj
      intro c1 h1 c2 h2 heq
      rw [cell_map_range _ _ _ (rowcol_lt row c1 size hrow h1),
        cell_map_range _ _ _ (rowcol_lt row c2 size hrow h2),
        hFval row c1 hrow h1, hFval row c2 hrow h2] at heq
      exact add_mod_right_inj size _ c1 c2 h1 h2 (hinj _ _ heq)
  · -- columns
    intro col hcol
    rw [is_valid_col_iff]
    constructor
    · intro v hv
      rw [colCells] at hv
      obtain ⟨rr, hrr, rfl⟩ := List.mem_map.mp hv
      have hr := List.mem_range.mp hrr
      rw [cell_map_range _ _ _ (rowcol_lt rr col size hr hcol), hFval rr col hr hcol]
      exact hmem _
    · rw [colCells]
      apply map_range_nodup_of_inj
      intro r1 h1 r2 h2 heq
      rw [cell_map_range _ _ _ (rowcol_lt r1 col size h1 hcol),
        cell_map_range _ _ _ (rowcol_lt r2 col size h2 hcol),
        hFval r1 col h1 hcol, hFval r2 col h2 hcol] at heq
      have hmods := hinj _ _ heq
      have hT1 : (r1 * s + r1 / s) % size < size := Nat.mod_lt _ hszpos
      have hT2 : (r2 * s + r2 / s) % size < size := Nat.mod_lt _ hszpos
      have := add_mod_left_inj size col _ _ hT1 hT2 hmods
      exact shift_inj size s hs r1 r2 h1 h2 this
  · -- boxes
    intro br hbr bc hbc
    obtain ⟨hbrlt, hbrmod⟩ := (mem_boxStarts size s br).mp hbr
    obtain ⟨hbclt, hbcmod⟩ := (mem_boxStarts size s bc).mp hbc
    have hbrd : (br / s) * s = br := Nat.div_mul_cancel (Nat.dvd_of_mod_eq_zero hbrmod)
    have hbcd : (bc / s) * s = bc := Nat.div_mul_cancel (Nat.dvd_of_mod_eq_zero hbcmod)
    have hq : br / s < s := idx_div_lt br s (by rw [hs]; exact hbrlt)
    have hp : bc / s < s := idx_div_lt bc s (by rw [hs]; exact hbclt)
    have hrowlt : ∀ k, k < s * s → br + k / s < size := by
      intro k hk
      have h1 : k / s < s := idx_div_lt k s hk
      have := rowcol_lt (br / s) (k / s) s hq h1
      rw [← hs, ← hbrd]
      omega
    have hcollt : ∀ k, k < s * s → bc + k % s < size := by
      intro k hk
      have h1 : k % s < s := Nat.mod_lt _ hspos
      have := rowcol_lt (bc / s) (k % s) s hp h1
      rw [← hs, ← hbcd]
      omega
    have hidx : ∀ k, k < s * s → (br + k / s) * size + (bc + k % s) < size * size :=
      fun k hk => rowcol_lt _ _ size (hrowlt k hk) (hcollt k hk)
    have hshiftval : ∀ k, k < s * s →
        ((br + k / s) * s + (br + k / s) / s) % size = (k / s) * s + br / s := by
      intro k hk
      have hd : k / s < s := idx_div_lt k s hk
      have hre : br + k / s = (br / s) * s + k / s := by rw [hbrd]
      rw [shift_formula size s (br + k / s) hs (hrowlt k hk)]
      rw [hre, rowcol_mod (br / s) (k / s) s hd, rowcol_div (br / s) (k / s) s hd]
    have hsum : ∀ k, k < s * s →
        (bc + k % s) + ((br + k / s) * s + (br + k / s) / s) % size
          = k + (bc + br / s) := by
      intro k hk
      rw [hshiftval k hk]
      have hdm := Nat.div_add_mod' k s
      omega
    rw [is_valid_box_iff]
    constructor
    · intro v hv
      rw [boxCells_eq_map] at hv
      obtain ⟨k, hkr, rfl⟩ := List.mem_map.mp hv
      have hk := List.mem_range.mp hkr
      rw [cell_map_range _ _ _ (hidx k hk),
        hFval (br + k / s) (bc + k % s) (hrowlt k hk) (hcollt k hk)]
      exact hmem _
    · rw [boxCells_eq_map]
      apply map_range_nodup_of_inj
      intro k1 h1 k2 h2 heq
      rw [cell_map_range _ _ _ (hidx k1 h1), cell_map_range _ _ _ (hidx k2 h2),
        hFval (br + k1 / s) (bc + k1 % s) (hrowlt k1 h1) (hcollt k1 h1),
        hFval (br + k2 / s) (bc + k2 % s) (hrowlt k2 h2) (hcollt k2 h2)] at heq
      have hmods := hinj _ _ heq
      rw [hsum k1 h1, hsum k2 h2] at hmods
      have hk1 : k1 < size := by
        rw [← hs, hsdef]
        exact h1
      have hk2 : k2 < size := by
        rw [← hs, hsdef]
        exact h2
      exact add_mod_right_inj size _ k1 k2 hk1 hk2 hmods

/-- The pattern generator output is a valid solution for every
perfect-square size and every RNG stream. -/
theorem generate_solution_pattern_valid (size : Nat) (r : Rng)
    (hs : usqrt size * usqrt size = size) :
    is_valid_solution (generate_solution_pattern size r) size = true := by
  have hperm := shuffle_numbers_perm (intRange1 size) r
  exact pattern_grid_valid size ((shuffle_numbers (intRange1 size) r).1) hs
    (by rw [hperm.length_eq, length_intRange1])
    (hperm.nodup_iff.mpr (nodup_intRange1 size))
    (fun v hv => (mem_intRange1 size v).mp (hperm.mem_iff.mp hv))

theorem generate_solution_pattern_length (size : Nat) (r : Rng) :
    (generate_solution_pattern size r).length = size * size := by
  rw [generate_solution_pattern]
  simp

end PatternLemmas


section FillGridLemmas

theorem cell_replicate (n k : Nat) : cell (List.replicate n (0 : Int)) k = 0 := by
  rw [cell]
  rcases Nat.lt_or_ge k n with h | h
  · rw [List.getD_eq_getElem?_getD, List.getElem?_replicate]
    simp [h]
  · exact cell_eq_zero_of_ge _ k (by simpa using h)

/-- One step of the fill invariant: placing a valid digit at the first
empty cell. -/
theorem fillInv_set (g : List Int) (size pos : Nat) (num : Int)
    (hs : usqrt size * usqrt size = size)
    (hinv : FillInv g size pos) (hplt : pos < size * size)
    (hnum : 1 ≤ num ∧ num ≤ (size : Int))
    (hval : is_valid_placement g size (pos / size) (pos % size) num = true) :
    FillInv (g.set pos num) size (pos + 1) := by
  obtain ⟨hlen, hrange, hnc, hfill, hzero⟩ := hinv
  have hcell : cell g pos = 0 := hzero pos (by omega) hplt
  refine ⟨by rw [length_set, hlen], ?_, ?_, ?_, ?_⟩
  · exact inRange_set g size pos num hnum.1 hnum.2 hrange
  · exact noConflicts_set g size pos num hs hlen hplt hcell hnum.1 hnc hval
  · intro k hk
    by_cases hkp : k = pos
    · rw [hkp, cell_set_self g pos num (by omega)]
      omega
    · rw [cell_set_ne g pos k num (fun he => hkp he.symm)]
      exact hfill k (by omega)
  · intro k hk1 hk2
    rw [cell_set_ne g pos k num (by omega)]
    exact hzero k (by omega) hk2

theorem fillLoop_false_fst (recf : List Int → Rng → List Int × Rng × Bool)
    (size row col pos : Nat)
    (hrecA : ∀ (g' : List Int) (r' : Rng),
      (∀ k, pos + 1 ≤ k → k < size * size → cell g' k = 0) →
      (recf g' r').2.2 = false → (recf g' r').1 = g') :
    ∀ (nums : List Int) (g : List Int) (r : Rng),
      (∀ k, pos ≤ k → k < size * size → cell g k = 0) → pos < size * size →
      (fillLoop recf g size row col pos r nums).2.2 = false →
      (fillLoop recf g size row col pos r nums).1 = g
  | [], g, r, _, _, _ => rfl
  | num :: rest, g, r, hzero, hplt, hflag => by
      rw [fillLoop] at hflag ⊢
      by_cases hval : is_valid_placement g size row col num = true
      · rw [if_pos hval] at hflag ⊢
        have hzset : ∀ k, pos + 1 ≤ k → k < size * size → cell (g.set pos num) k = 0 := by
          intro k hk1 hk2
          rw [cell_set_ne g pos k num (by omega)]
          exact hzero k (by omega) hk2
        by_cases hp : (recf (g.set pos num) r).2.2 = true
        · rw [if_pos hp] at hflag
          rw [hflag] at hp
          exact absurd hp (by simp)
        · have hp' : (recf (g.set pos num) r).2.2 = false := by
            rcases Bool.eq_false_or_eq_true (recf (g.set pos num) r).2.2 with h | h
            · exact absurd h hp
            · exact h
          rw [if_neg hp] at hflag ⊢
          have hrest : (recf (g.set pos num) r).1 = g.set pos num := hrecA _ r hzset hp'
          have hrw : (recf (g.set pos num) r).1.set pos 0 = g := by
            rw [hrest, cell_set_set]
            calc g.set pos 0 = g.set pos (cell g pos) := by
                  rw [hzero pos (by omega) hplt]
              _ = g := set_cell_self g pos
          rw [hrw] at hflag ⊢
          exact fillLoop_false_fst recf size row col pos hrecA rest g _ hzero hplt hflag
      · rw [if_neg hval] at hflag ⊢
        exact fillLoop_false_fst recf size row col pos hrecA rest g r hzero hplt hflag

theorem fill_grid_false_fst (size : Nat) :
    ∀ (n : Nat) (g : List Int) (pos : Nat) (r : Rng), size * size ≤ pos + n →
      (∀ k, pos ≤ k → k < size * size → cell g k = 0) →
      (fill_grid g size pos r).2.2 = false → (fill_grid g size pos r).1 = g
  | n, g, pos, r, hn, hzero, hflag => by
      rw [fill_grid] at hflag ⊢
      by_cases hp : size * size ≤ pos
      · rw [dif_pos hp] at hflag
        exact absurd hflag (by simp)
      · rw [dif_neg hp] at hflag ⊢
        match n, hn with
        | Nat.zero, hn =>
          exfalso
          have h' : size * size ≤ pos := by simpa using hn
          omega
        | Nat.succ n', hn =>
          exact fillLoop_false_fst _ size (pos / size) (pos % size) pos
            (fun g' r' hz hf => fill_grid_false_fst size n' g' (pos + 1) r' (by omega) hz hf)
            _ g _ hzero (by omega) hflag

theorem fillLoop_success_valid (recf : List Int → Rng → List Int × Rng × Bool)
    (size pos : Nat) (hs : usqrt size * usqrt size = size) (hplt : pos < size * size)
    (hrecA : ∀ (g' : List Int) (r' : Rng),
      (∀ k, pos + 1 ≤ k → k < size * size → cell g' k = 0) →
      (recf g' r').2.2 = false → (recf g' r').1 = g')
    (hrecB : ∀ (g' : List Int) (r' : Rng), FillInv g' size (pos + 1) →
      (recf g' r').2.2 = true → is_valid_solution (recf g' r').1 size = true) :
    ∀ (nums : List Int) (g : List Int) (r : Rng),
      (∀ v ∈ nums, 1 ≤ v ∧ v ≤ (size : Int)) → FillInv g size pos →
      (fillLoop recf g size (pos / size) (pos % size) pos r nums).2.2 = true →
      is_valid_solution
        (fillLoop recf g size (pos / size) (pos % size) pos r nums).1 size = true
  | [], g, r, _, _, hflag => absurd hflag (by simp [fillLoop])
  | num :: rest, g, r, hmem, hinv, hflag => by
      have hnum := hmem num (List.mem_cons_self num rest)
      have hrestmem : ∀ v ∈ rest, 1 ≤ v ∧ v ≤ (size : Int) :=
        fun v hv => hmem v (List.mem_cons_of_mem num hv)
      rw [fillLoop] at hflag ⊢
      by_cases hval : is_valid_placement g size (pos / size) (pos % size) num = true
      · rw [if_pos hval] at hflag ⊢
        have hinvset : FillInv (g.set pos num) size (pos + 1) :=
          fillInv_set g size pos num hs hinv hplt hnum hval
        by_cases hp : (recf (g.set pos num) r).2.2 = true
        · rw [if_pos hp] at hflag ⊢
          exact hrecB _ r hinvset hp
        · have hp' : (recf (g.set pos num) r).2.2 = false := by
            rcases Bool.eq_false_or_eq_true (recf (g.set pos num) r).2.2 with h | h
            · exact absurd h hp
            · exact h
          rw [if_neg hp] at hflag ⊢
          have hzset : ∀ k, pos + 1 ≤ k → k < size * size → cell (g.set pos num) k = 0 := by
            intro k hk1 hk2
            rw [cell_set_ne g pos k num (by omega)]
            exact hinv.2.2.2.2 k (by omega) hk2
          have hrw : (recf (g.set pos num) r).1.set pos 0 = g := by
            rw [hrecA _ r hzset hp', cell_set_set]
            calc g.set pos 0 = g.set pos (cell g pos) := by
                  rw [hinv.2.2.2.2 pos (by omega) hplt]
              _ = g := set_cell_self g pos
          rw [hrw] at hflag ⊢
          exact fillLoop_success_valid recf size pos hs hplt hrecA hrecB rest g _
            hrestmem hinv hflag
      · rw [if_neg hval] at hflag ⊢
        exact fillLoop_success_valid recf size pos hs hplt hrecA hrecB rest g r
          hrestmem hinv hflag

theorem fill_grid_success_valid (size : Nat) (hs : usqrt size * usqrt size = size) :
    ∀ (n : Nat) (g : List Int) (pos : Nat) (r : Rng), size * size ≤ pos + n →
      FillInv g size pos → (fill_grid g size pos r).2.2 = true →
      is_valid_solution (fill_grid g size pos r).1 size = true
  | n, g, pos, r, hn, hinv, hflag => by
      rw [fill_grid] at hflag ⊢
      by_cases hp : size * size ≤ pos
      · rw [dif_pos hp] at hflag ⊢
        obtain ⟨hlen, hrange, hnc, hfill, _⟩ := hinv
        refine is_valid_solution_of g size hs hlen ?_ hnc
        intro i hi
        exact hrange i hi (hfill i (by omega))
      · rw [dif_neg hp] at hflag ⊢
        match n, hn with
        | Nat.zero, hn =>
          exfalso
          have h' : size * size ≤ pos := by simpa using hn
          omega
        | Nat.succ n', hn =>
          have hperm := shuffle_numbers_perm (intRange1 size) r
          exact fillLoop_success_valid _ size pos hs (by omega)
            (fun g' r' hz hf => fill_grid_false_fst size n' g' (pos + 1) r' (by omega) hz hf)
            (fun g' r' hi hf => fill_grid_success_valid size hs n' g' (pos + 1) r'
              (by omega) hi hf)
            _ g _ (fun v hv => (mem_intRange1 size v).mp (hperm.mem_iff.mp hv)) hinv hflag

theorem fillLoop_complete (recf : List Int → Rng → List Int × Rng × Bool)
    (size pos : Nat) (hs : usqrt size * usqrt size = size) (hplt : pos < size * size)
    (hrecA : ∀ (g' : List Int) (r' : Rng),
      (∀ k, pos + 1 ≤ k → k < size * size → cell g' k = 0) →
      (recf g' r').2.2 = false → (recf g' r').1 = g')
    (hrecC : ∀ (g' : List Int) (r' : Rng), FillInv g' size (pos + 1) →
      (∃ f, ExtendsFrom g' f size (pos + 1)) → (recf g' r').2.2 = true) :
    ∀ (nums : List Int) (g : List Int) (r : Rng), FillInv g size pos →
      (∃ v ∈ nums, ∃ f, ExtendsFrom g f size pos ∧ cell f pos = v) →
      (fillLoop recf g size (pos / size) (pos % size) pos r nums).2.2 = true
  | [], g, r, _, hex => by
      obtain ⟨v, hv, _⟩ := hex
      exact absurd hv (List.not_mem_nil v)
  | num :: rest, g, r, hinv, hex => by
      obtain ⟨v, hvmem, f, hext, hfv⟩ := hex
      obtain ⟨hflen, hfagree, hfrange, hfnc⟩ := hext
      obtain ⟨hlen, hrange, hnc, hfill, hzero⟩ := hinv
      rw [fillLoop]
      by_cases hval : is_valid_placement g size (pos / size) (pos % size) num = true
      · rw [if_pos hval]
        by_cases hp : (recf (g.set pos num) r).2.2 = true
        · rw [if_pos hp]
          exact hp
        · have hp' : (recf (g.set pos num) r).2.2 = false := by
            rcases Bool.eq_false_or_eq_true (recf (g.set pos num) r).2.2 with h | h
            · exact absurd h hp
            · exact h
          rw [if_neg hp]
          have hzset : ∀ k, pos + 1 ≤ k → k < size * size → cell (g.set pos num) k = 0 := by
            intro k hk1 hk2
            rw [cell_set_ne g pos k num (by omega)]
            exact hzero k (by omega) hk2
          have hrw : (recf (g.set pos num) r).1.set pos 0 = g := by
            rw [hrecA _ r hzset hp', cell_set_set]
            calc g.set pos 0 = g.set pos (cell g pos) := by
                  rw [hzero pos (by omega) hplt]
              _ = g := set_cell_self g pos
          rw [hrw]
          -- the recursive branch for `num` failed, so the witness value
          -- cannot be `num`: if it were, the branch would have succeeded
          have hvrest : v ∈ rest := by
            rcases List.mem_cons.mp hvmem with he | hr2
            · exfalso
              -- v = num: the branch for num must succeed
              have hinvset : FillInv (g.set pos num) size (pos + 1) :=
                fillInv_set g size pos num hs
                  ⟨hlen, hrange, hnc, hfill, hzero⟩ hplt
                  (by
                    have := hfrange pos hplt
                    rw [hfv, he] at this
                    exact this) hval
              have hextset : ExtendsFrom (g.set pos num) f size (pos + 1) := by
                refine ⟨hflen, ?_, hfrange, hfnc⟩
                intro k hk
                by_cases hkp : k = pos
                · rw [hkp, cell_set_self g pos num (by omega), hfv, he]
                · rw [cell_set_ne g pos k num (fun hh => hkp hh.symm)]
                  exact hfagree k (by omega)
              have := hrecC _ r hinvset ⟨f, hextset⟩
              rw [hp'] at this
              exact absurd this (by simp)
            · exact hr2
          exact fillLoop_complete recf size pos hs hplt hrecA hrecC rest g _
            ⟨hlen, hrange, hnc, hfill, hzero⟩ ⟨v, hvrest, f, ⟨hflen, hfagree, hfrange, hfnc⟩, hfv⟩
      · rw [if_neg hval]
        -- an invalid candidate cannot be the witness value
        have hvrest : v ∈ rest := by
          rcases List.mem_cons.mp hvmem with he | hr2
          · exfalso
            apply hval
            rw [is_valid_placement_iff g size (pos / size) (pos % size) num hs
              (idx_div_lt pos size hplt) (idx_mod_lt pos size hplt)]
            rw [idx_decomp]
            intro j hj hju hjnum
            have hjz : cell g j ≠ 0 := by
              rw [hjnum]
              have h1 := hfrange pos hplt
              rw [hfv, he] at h1
              omega
            have hjlt : j < pos := by
              by_contra hge
              exact hjz (hzero j (by omega) hj)
            have hjpos : j ≠ pos := by omega
            have hfj : cell f j = num := by
              rw [hfagree j hjlt, hjnum]
            refine hfnc j hj pos hplt ⟨hjpos, hju, ?_⟩ ?_
            · rw [hfj]
              have h1 := hfrange pos hplt
              rw [hfv, he] at h1
              omega
            · rw [hfj, hfv, he]
          · exact hr2
        exact fillLoop_complete recf size pos hs hplt hrecA hrecC rest g r
          ⟨hlen, hrange, hnc, hfill, hzero⟩ ⟨v, hvrest, f, ⟨hflen, hfagree, hfrange, hfnc⟩, hfv⟩

theorem fill_grid_complete (size : Nat) (hs : usqrt size * usqrt size = size) :
    ∀ (n : Nat) (g : List Int) (pos : Nat) (r : Rng), size * size ≤ pos + n →
      FillInv g size pos → (∃ f, ExtendsFrom g f size pos) →
      (fill_grid g size pos r).2.2 = true
  | n, g, pos, r, hn, hinv, hex => by
      rw [fill_grid]
      by_cases hp : size * size ≤ pos
      · rw [dif_pos hp]
      · rw [dif_neg hp]
        match n, hn with
        | Nat.zero, hn =>
          exfalso
          have h' : size * size ≤ pos := by simpa using hn
          omega
        | Nat.succ n', hn =>
          obtain ⟨f, hext⟩ := hex
          have hperm := shuffle_numbers_perm (intRange1 size) r
          have hv : cell f pos ∈ (shuffle_numbers (intRange1 size) r).1 := by
            rw [hperm.mem_iff, mem_intRange1]
            exact hext.2.2.1 pos (by omega)
          exact fillLoop_complete _ size pos hs (by omega)
            (fun g' r' hz hf => fill_grid_false_fst size n' g' (pos + 1) r' (by omega) hz hf)
            (fun g' r' hi he => fill_grid_complete size hs n' g' (pos + 1) r' (by omega) hi he)
            _ g _ hinv ⟨cell f pos, hv, f, hext, rfl⟩

end FillGridLemmas

section GenerateSolutionLemmas

theorem usqrt9 : usqrt 9 * usqrt 9 = 9 := by decide

theorem sol9_valid : is_valid_solution sol9 9 = true := by decide

theorem fillInv_empty (size : Nat) :
    FillInv (List.replicate (size * size) (0 : Int)) size 0 := by
  refine ⟨by simp, ?_, ?_, ?_, ?_⟩
  · intro i hi hz
    exact absurd (cell_replicate (size * size) i) hz
  · intro i hi j hj hprem
    exact absurd (cell_replicate (size * size) i) hprem.2.2
  · intro k hk
    omega
  · intro k _ _
    exact cell_replicate (size * size) k

/-- The 9x9 branch of `generate_solution` always produces a valid
solution: the backtracking search is complete and a 9x9 solution
exists. -/
theorem generate_solution_valid_9 (seed : Nat) :
    (generate_solution 9 seed).length = 9 * 9 ∧
      is_valid_solution (generate_solution 9 seed) 9 = true := by
  rw [generate_solution, if_neg (by omega)]
  have hext : ExtendsFrom (List.replicate (9 * 9) (0 : Int)) sol9 9 0 := by
    refine ⟨valid_solution_length sol9 9 sol9_valid, ?_, ?_, ?_⟩
    · intro k hk
      omega
    · exact valid_solution_in_range sol9 9 sol9_valid
    · exact valid_solution_no_conflicts sol9 9 usqrt9 sol9_valid
  have hflag := fill_grid_complete 9 usqrt9 (9 * 9)
    (List.replicate (9 * 9) (0 : Int)) 0 (stdRngFromSeed seed) (by omega)
    (fillInv_empty 9) ⟨sol9, hext⟩
  have hvalid := fill_grid_success_valid 9 usqrt9 (9 * 9)
    (List.replicate (9 * 9) (0 : Int)) 0 (stdRngFromSeed seed) (by omega)
    (fillInv_empty 9) hflag
  exact ⟨valid_solution_length _ 9 hvalid, hvalid⟩

/-- The pattern branch of `generate_solution` produces a valid solution
for every perfect-square size at least 16. -/
theorem generate_solution_valid_pattern (size seed : Nat) (hge : 16 ≤ size)
    (hs : usqrt size * usqrt size = size) :
    (generate_solution size seed).length = size * size ∧
      is_valid_solution (generate_solution size seed) size = true := by
  rw [generate_solution, if_pos hge]
  exact ⟨generate_solution_pattern_length size _,
    generate_solution_pattern_valid size _ hs⟩

/-- For every accepted size and every seed, the generated solution has
length `size * size` and passes `is_valid_solution`. -/
theorem generate_solution_valid (size seed : Nat)
    (h : size = 9 ∨ size = 16 ∨ size = 25 ∨ size = 36 ∨ size = 49 ∨ size = 100) :
    (generate_solution size seed).length = size * size ∧
      is_valid_solution (generate_solution size seed) size = true := by
  rcases h with rfl | rfl | rfl | rfl | rfl | rfl
  · exact generate_solution_valid_9 seed
  · exact generate_solution_valid_pattern 16 seed (by omega) (by decide)
  · exact generate_solution_valid_pattern 25 seed (by omega) (by decide)
  · exact generate_solution_valid_pattern 36 seed (by omega) (by decide)
  · exact generate_solution_valid_pattern 49 seed (by omega) (by decide)
  · exact generate_solution_valid_pattern 100 seed (by omega) (by decide)

end GenerateSolutionLemmas

section CreatePuzzleLemmas

theorem cell_eq_getElem (g : List Int) (i : Nat) (h : i < g.length) :
    cell g i = g[i] := by
  rw [cell, List.getD_eq_getElem?_getD, List.getElem?_eq_getElem h]
  rfl

theorem count_solutions_complete_grid (g : List Int) (size : Nat)
    (hlen : g.length = size * size) (hcomp : ∀ i, i < size * size → cell g i ≠ 0) :
    count_solutions g size = 1 := by
  rw [count_solutions, count_solutions_recursive]
  have hcp : size * size ≤ find_empty g (size * size) 0 := by
    by_contra hlt
    exact hcomp _ (by omega) (find_empty_cell g (size * size) 0 (by omega))
  rw [dif_pos hcp]

/-- For `size = 9`, carving preserves solution uniqueness: every grid
returned by `create_puzzle` from a valid complete solution counts
exactly one solution. -/
theorem create_puzzle_count_unique (sol : List Int) (difficulty : Int) (seed : Nat)
    (hval : is_valid_solution sol 9 = true) :
    count_solutions (create_puzzle sol difficulty 9 seed) 9 = 1 := by
  simp only [create_puzzle, beq_self_eq_true]
  apply removeLoop_unique
  apply count_solutions_complete_grid sol 9 (valid_solution_length sol 9 hval)
  intro i hi
  have := valid_solution_in_range sol 9 hval i hi
  omega

/-- The carved grid agrees with the input on every non-empty cell and
keeps its length, for every size, difficulty, and seed. -/
theorem create_puzzle_subset (sol : List Int) (difficulty : Int) (size seed : Nat) :
    (create_puzzle sol difficulty size seed).length = sol.length ∧
      ∀ i, cell (create_puzzle sol difficulty size seed) i ≠ 0 →
        cell (create_puzzle sol difficulty size seed) i = cell sol i := by
  simp only [create_puzzle]
  exact ⟨removeLoop_length _ _ _ _ _ _,
    removeLoop_agrees _ _ _ sol _ _ _ (fun j _ => rfl)⟩

theorem valid_count_zero (g : List Int) (size : Nat)
    (hval : is_valid_solution g size = true) : g.count 0 = 0 := by
  rw [List.count_eq_zero]
  intro hmem
  obtain ⟨i, hi, hie⟩ := List.mem_iff_getElem.mp hmem
  have hlen := valid_solution_length g size hval
  have hr := valid_solution_in_range g size hval i (by omega)
  rw [← cell_eq_getElem g i hi] at hie
  omega

theorem filter_nonzero_length (l : List Int) :
    (l.filter (fun v => !(v == 0))).length + l.count 0 = l.length := by
  induction l with
  | nil => rfl
  | cons x xs ih =>
    rcases Bool.eq_false_or_eq_true ((x : Int) == 0) with hx | hx
    · rw [List.filter_cons, List.count_cons, hx]
      simp only [Bool.not_true, Bool.not_false, Bool.false_eq_true, if_false, if_true,
        List.length_cons]
      omega
    · rw [List.filter_cons, List.count_cons, hx]
      simp only [Bool.not_true, Bool.not_false, Bool.false_eq_true, if_false, if_true,
        List.length_cons]
      omega

end CreatePuzzleLemmas

section TargetCluesBounds

theorem antitone_filter_range (p : Nat → Bool)
    (hmono : ∀ i j, i ≤ j → p j = true → p i = true) :
    ∀ N, (List.range N).filter p = List.range (((List.range N).filter p).length)
  | 0 => rfl
  | N + 1 => by
      rw [List.range_succ, List.filter_append]
      rcases Bool.eq_false_or_eq_true (p N) with hpN | hpN
      · have hall : (List.range N).filter p = List.range N :=
          List.filter_eq_self.mpr (fun k hk => hmono k N (by
            have := List.mem_range.mp hk
            omega) hpN)
        have he : List.filter p [N] = [N] := by simp [hpN]
        rw [hall, he, ← List.range_succ]
        simp
      · have he : List.filter p [N] = [] := by simp [hpN]
        rw [he, List.append_nil]
        exact antitone_filter_range p hmono N

theorem roundNEdiv_le (n d : Nat) : roundNEdiv n d ≤ n / d + 1 := by
  rw [roundNEdiv]
  split_ifs <;> omega

theorem dropBits_pow_le (v : Nat) (hd : 1 ≤ dropBits v) :
    2 ^ (52 + dropBits v) ≤ v := by
  have hchar := antitone_filter_range (fun k => decide (2 ^ (53 + k) ≤ v))
    (fun i j hij hj => by
      simp only [decide_eq_true_eq] at hj ⊢
      calc 2 ^ (53 + i) ≤ 2 ^ (53 + j) := Nat.pow_le_pow_right (by omega) (by omega)
        _ ≤ v := hj) 128
  have hlenf : ((List.range 128).filter (fun k => decide (2 ^ (53 + k) ≤ v))).length
      = dropBits v := rfl
  have hmem : dropBits v - 1 ∈ (List.range 128).filter (fun k => decide (2 ^ (53 + k) ≤ v)) := by
    rw [hchar]
    apply List.mem_range.mpr
    rw [hlenf]
    omega
  have := List.of_mem_filter hmem
  simp only [decide_eq_true_eq] at this
  calc 2 ^ (52 + dropBits v) = 2 ^ (53 + (dropBits v - 1)) := by
        congr 1
        omega
    _ ≤ v := this

/-- The rounded, truncated product is at most `a` whenever the dyadic
multiplier `m / 2^k` is (comfortably) below 1. -/
theorem f64mulTrunc_le (a m k : Nat) (hv : a * m < 2 ^ 180)
    (hmk : m + m / 2 ^ 52 + 1 ≤ 2 ^ k) : f64mulTrunc a m k ≤ a := by
  rw [f64mulTrunc]
  have hkpos : 0 < 2 ^ k := Nat.pos_pow_of_pos k (by omega)
  rw [Nat.div_le_iff_le_mul_add_pred hkpos]
  have hle1 : roundNEdiv (a * m) (2 ^ dropBits (a * m)) ≤ (a * m) / 2 ^ dropBits (a * m) + 1 :=
    roundNEdiv_le _ _
  have hle2 : roundNEdiv (a * m) (2 ^ dropBits (a * m)) * 2 ^ dropBits (a * m)
      ≤ a * m + 2 ^ dropBits (a * m) := by
    calc roundNEdiv (a * m) (2 ^ dropBits (a * m)) * 2 ^ dropBits (a * m)
        ≤ ((a * m) / 2 ^ dropBits (a * m) + 1) * 2 ^ dropBits (a * m) :=
          Nat.mul_le_mul_right _ hle1
      _ = ((a * m) / 2 ^ dropBits (a * m)) * 2 ^ dropBits (a * m) + 2 ^ dropBits (a * m) := by
          ring
      _ ≤ a * m + 2 ^ dropBits (a * m) := by
          have := Nat.div_mul_le_self (a * m) (2 ^ dropBits (a * m))
          omega
  rcases Nat.eq_zero_or_pos (dropBits (a * m)) with hd0 | hdpos
  · -- no rounding: the product fits in the mantissa
    rw [hd0]
    simp only [Nat.pow_zero, Nat.mul_one]
    have hrne : roundNEdiv (a * m) 1 = a * m := by
      simp only [roundNEdiv]
      split_ifs <;> omega
    have hma : a * m ≤ 2 ^ k * a := by
      rw [Nat.mul_comm a m]
      exact Nat.mul_le_mul (by omega) (Nat.le_refl a)
    omega
  · have hpow : 2 ^ (52 + dropBits (a * m)) ≤ a * m := dropBits_pow_le (a * m) hdpos
    have hdle : 2 ^ dropBits (a * m) ≤ (a * m) / 2 ^ 52 := by
      rw [Nat.le_div_iff_mul_le (Nat.pos_pow_of_pos 52 (by omega))]
      calc 2 ^ dropBits (a * m) * 2 ^ 52 = 2 ^ (52 + dropBits (a * m)) := by
            rw [← Nat.pow_add]
            congr 1
            omega
        _ ≤ a * m := hpow
    have hdiv : (a * m) / 2 ^ 52 ≤ a * (m / 2 ^ 52 + 1) := by
      have hmle : m ≤ 2 ^ 52 * (m / 2 ^ 52 + 1) := by
        have := Nat.div_add_mod m (2 ^ 52)
        have hmod : m % 2 ^ 52 < 2 ^ 52 := Nat.mod_lt _ (Nat.pos_pow_of_pos 52 (by omega))
        calc m = 2 ^ 52 * (m / 2 ^ 52) + m % 2 ^ 52 := this.symm
          _ ≤ 2 ^ 52 * (m / 2 ^ 52) + 2 ^ 52 := by omega
          _ = 2 ^ 52 * (m / 2 ^ 52 + 1) := by ring
      calc (a * m) / 2 ^ 52 ≤ (a * (2 ^ 52 * (m / 2 ^ 52 + 1))) / 2 ^ 52 :=
            Nat.div_le_div_right (Nat.mul_le_mul_left a hmle)
        _ = (2 ^ 52 * (a * (m / 2 ^ 52 + 1))) / 2 ^ 52 := by
            congr 1
            ring
        _ = a * (m / 2 ^ 52 + 1) :=
            Nat.mul_div_cancel_left _ (Nat.pos_pow_of_pos 52 (by omega))
    have hfinal : a * m + 2 ^ dropBits (a * m) ≤ a * 2 ^ k := by
      calc a * m + 2 ^ dropBits (a * m) ≤ a * m + a * (m / 2 ^ 52 + 1) := by omega
        _ = a * (m + m / 2 ^ 52 + 1) := by ring
        _ ≤ a * 2 ^ k := Nat.mul_le_mul_left a hmk
    calc roundNEdiv (a * m) (2 ^ dropBits (a * m)) * 2 ^ dropBits (a * m)
        ≤ a * m + 2 ^ dropBits (a * m) := hle2
      _ ≤ a * 2 ^ k := hfinal
      _ ≤ 2 ^ k * a + (2 ^ k - 1) := by
          rw [Nat.mul_comm]
          omega

/-- The clue target never exceeds the number of cells (for sizes within
the overflow-free `usize` range, `size ≤ 2^32`). -/
theorem calculate_target_clues_le (size : Nat) (difficulty : Int)
    (hsize : size ≤ 2 ^ 32) :
    calculate_target_clues size difficulty ≤ size * size := by
  have htot : size * size ≤ 2 ^ 64 := by
    calc size * size ≤ 2 ^ 32 * 2 ^ 32 := Nat.mul_le_mul hsize hsize
      _ = 2 ^ 64 := by norm_num
  have hm53 : (difficulty_percentage difficulty).1 < 2 ^ 53 ∧
      (difficulty_percentage difficulty).1 + (difficulty_percentage difficulty).1 / 2 ^ 52 + 1
        ≤ 2 ^ (difficulty_percentage difficulty).2 := by
    rw [difficulty_percentage]
    split_ifs <;> constructor <;> decide
  rw [calculate_target_clues]
  refine f64mulTrunc_le (size * size) _ _ ?_ hm53.2
  calc size * size * (difficulty_percentage difficulty).1
      ≤ 2 ^ 64 * 2 ^ 53 := Nat.mul_le_mul htot (by omega)
    _ < 2 ^ 180 := by norm_num

end TargetCluesBounds

section CreatePuzzleCounting

/-- The number of zeroed cells never exceeds `size² − targetClues`. -/
theorem create_puzzle_zeros_le (sol : List Int) (difficulty : Int) (size seed : Nat)
    (hval : is_valid_solution sol size = true) :
    (create_puzzle sol difficulty size seed).count 0
      ≤ size * size - calculate_target_clues size difficulty := by
  simp only [create_puzzle]
  have h := removeLoop_zeros_le size (size == 9)
    (size * size - calculate_target_clues size difficulty)
    ((shuffle_indices (List.range (size * size)) (stdRngFromSeed seed)).1) sol 0
  rw [valid_count_zero sol size hval] at h
  omega

/-- With the oracle disabled (`size ≠ 9`), the carved grid has exactly
`targetClues` non-zero cells. -/
theorem create_puzzle_clues_exact (sol : List Int) (difficulty : Int) (size seed : Nat)
    (hval : is_valid_solution sol size = true) (hne : size ≠ 9) (hsize : size ≤ 2 ^ 32) :
    ((create_puzzle sol difficulty size seed).filter (fun v => !(v == 0))).length
      = calculate_target_clues size difficulty := by
  have hlen := valid_solution_length sol size hval
  have hperm := shuffle_indices_perm (List.range (size * size)) (stdRngFromSeed seed)
  have hcu : ((size == 9) : Bool) = false := by
    simpa using hne
  simp only [create_puzzle, hcu]
  have hall : ∀ i ∈ (shuffle_indices (List.range (size * size)) (stdRngFromSeed seed)).1,
      i < sol.length ∧ cell sol i ≠ 0 := by
    intro i hi
    have hir := List.mem_range.mp (hperm.mem_iff.mp hi)
    have := valid_solution_in_range sol size hval i hir
    constructor
    · omega
    · omega
  have hnd : (shuffle_indices (List.range (size * size)) (stdRngFromSeed seed)).1.Nodup :=
    hperm.nodup_iff.mpr (List.nodup_range _)
  have hz := removeLoop_zeros_exact size
    (size * size - calculate_target_clues size difficulty)
    ((shuffle_indices (List.range (size * size)) (stdRngFromSeed seed)).1) sol 0 hall hnd
  rw [valid_count_zero sol size hval, hperm.length_eq, List.length_range] at hz
  have htle := calculate_target_clues_le size difficulty hsize
  have hmin : min (size * size - calculate_target_clues size difficulty - 0)
      (size * size) = size * size - calculate_target_clues size difficulty := by
    omega
  rw [hmin] at hz
  have hplen : (removeLoop size false
      (size * size - calculate_target_clues size difficulty) sol 0
      ((shuffle_indices (List.range (size * size)) (stdRngFromSeed seed)).1)).length
      = sol.length := removeLoop_length _ _ _ _ _ _
  have hfl := filter_nonzero_length (removeLoop size false
    (size * size - calculate_target_clues size difficulty) sol 0
    ((shuffle_indices (List.range (size * size)) (stdRngFromSeed seed)).1))
  omega

end CreatePuzzleCounting

section ClaimTheorems

/-- C1: for every accepted size in {9, 16, 25, 36, 49, 100} and every
seed, `generate_solution` returns a vector of length size*size that
passes `is_valid_solution`, on both the backtracking path (size 9) and
the pattern-shift path (size at least 16). -/
theorem claim_C1 (size seed : Nat)
    (h : size = 9 ∨ size = 16 ∨ size = 25 ∨ size = 36 ∨ size = 49 ∨ size = 100) :
    (generate_solution size seed).length = size * size ∧
      is_valid_solution (generate_solution size seed) size = true :=
  generate_solution_valid size seed h

theorem claim_C1_witness :
    (generate_solution 9 0).length = 9 * 9 ∧
      is_valid_solution (generate_solution 9 0) 9 = true :=
  claim_C1 9 0 (Or.inl rfl)

/-- C2: for size 9, every puzzle carved from a valid complete solution
still has exactly one counted solution, for every difficulty and seed. -/
theorem claim_C2 (sol : List Int) (difficulty : Int) (seed : Nat)
    (hval : is_valid_solution sol 9 = true) :
    count_solutions (create_puzzle sol difficulty 9 seed) 9 = 1 :=
  create_puzzle_count_unique sol difficulty seed hval

theorem claim_C2_witness :
    count_solutions (create_puzzle sol9 0 9 0) 9 = 1 :=
  claim_C2 sol9 0 0 sol9_valid

/-- C3: for every size, difficulty, seed and solution, the carved
puzzle has the same length as the solution and agrees with it on every
non-empty cell. -/
theorem claim_C3 (sol : List Int) (difficulty : Int) (size seed : Nat) :
    (create_puzzle sol difficulty size seed).length = sol.length ∧
      ∀ i, cell (create_puzzle sol difficulty size seed) i ≠ 0 →
        cell (create_puzzle sol difficulty size seed) i = cell sol i :=
  create_puzzle_subset sol difficulty size seed

/-- C4: determinism: the solution generator and the full pipeline are
pure functions of their arguments, so two calls with identical
arguments yield identical outputs. -/
theorem claim_C4 (size1 seed1 size2 seed2 : Nat) (sz1 df1 sz2 df2 : Int) (sd1 sd2 : Nat)
    (hsize : size1 = size2) (hseed : seed1 = seed2) (hsz : sz1 = sz2) (hdf : df1 = df2)
    (hsd : sd1 = sd2) :
    generate_solution size1 seed1 = generate_solution size2 seed2 ∧
      generate sz1 df1 sd1 = generate sz2 df2 sd2 := by
  subst hsize
  subst hseed
  subst hsz
  subst hdf
  subst hsd
  exact ⟨rfl, rfl⟩

theorem claim_C4_witness :
    generate_solution 9 5 = generate_solution 9 5 ∧ generate 9 1 7 = generate 9 1 7 :=
  claim_C4 9 5 9 5 9 1 9 1 7 7 rfl rfl rfl rfl rfl

/-- C5 (amended): on well-formed inputs (perfect-square size, length
size*size, cell values in range, no unit conflicts) `count_solutions`
is a sound uniqueness oracle: it returns 0 iff the grid has no
completion, 1 iff it has exactly one, and at least 2 iff it has two or
more.  The original claim is refuted by `claim_C5_counterexample`: the
returned value is not capped at 2 (it can be 3), and on a complete but
conflicted grid it returns 1 although no completion exists. -/
theorem claim_C5 (g : List Int) (size : Nat)
    (hs : usqrt size * usqrt size = size) (hlen : g.length = size * size)
    (hrange : InRangeCells g size) (hnc : NoConflicts g size) :
    (count_solutions g size = 0 ↔ numCompletions g size = 0) ∧
      (count_solutions g size = 1 ↔ numCompletions g size = 1) ∧
      (2 ≤ count_solutions g size ↔ 2 ≤ numCompletions g size) := by
  obtain ⟨h1, h2⟩ := count_solutions_spec g size hs hlen hrange hnc
  rcases Nat.lt_or_ge (count_solutions g size) 2 with hlt | hge
  · have h3 := h2 hlt
    exact ⟨by omega, by omega, by omega⟩
  · exact ⟨by omega, by omega, by omega⟩

theorem claim_C5_witness :
    (count_solutions puzzle4 4 = 0 ↔ numCompletions puzzle4 4 = 0) ∧
      (count_solutions puzzle4 4 = 1 ↔ numCompletions puzzle4 4 = 1) ∧
      (2 ≤ count_solutions puzzle4 4 ↔ 2 ≤ numCompletions puzzle4 4) :=
  claim_C5 puzzle4 4 (by decide) (by decide) (by decide) (by decide)

/-- The original C5 is false on two counts: `count_solutions` can
return 3 (above the advertised cap of 2), and on the complete
all-ones grid it returns 1 although that grid has no completion (its
clues are never cross-validated). -/
theorem claim_C5_counterexample :
    count_solutions puzzle4 4 = 3 ∧
      count_solutions (List.replicate 16 1) 4 = 1 ∧
      numCompletions (List.replicate 16 1) 4 = 0 := by
  refine ⟨?_, ?_, ?_⟩
  · rw [count_solutions_eval puzzle4 4 16 (by omega)]
    decide
  · rw [count_solutions_eval (List.replicate 16 1) 4 16 (by omega)]
    decide
  · rw [numCompletions_eval (List.replicate 16 1) 4 16 (by omega)]
    decide

/-- C6: carving is total: for every valid solution, difficulty, size
and seed it returns a grid whose zeroed-cell count is at most
size*size minus the clue target, and for size other than 9 (no
uniqueness oracle, overflow-free sizes) the puzzle has exactly the
target number of non-zero cells. -/
theorem claim_C6 (sol : List Int) (difficulty : Int) (size seed : Nat)
    (hval : is_valid_solution sol size = true) :
    (create_puzzle sol difficulty size seed).count 0
        ≤ size * size - calculate_target_clues size difficulty ∧
      (size ≠ 9 → size ≤ 2 ^ 32 →
        ((create_puzzle sol difficulty size seed).filter (fun v => !(v == 0))).length
          = calculate_target_clues size difficulty) :=
  ⟨create_puzzle_zeros_le sol difficulty size seed hval,
    fun hne hsize => create_puzzle_clues_exact sol difficulty size seed hval hne hsize⟩

theorem claim_C6_witness :
    (create_puzzle sol4 0 4 0).count 0 ≤ 4 * 4 - calculate_target_clues 4 0 ∧
      (4 ≠ 9 → 4 ≤ 2 ^ 32 →
        ((create_puzzle sol4 0 4 0).filter (fun v => !(v == 0))).length
          = calculate_target_clues 4 0) :=
  claim_C6 sol4 0 4 0 (by decide)

/-- C7: input validation of `generate`: the size validator accepts
exactly {9, 16, 25, 36, 49, 100} and the difficulty validator exactly
{0, 1, 2, 3}; an invalid size yields the InvalidSize error (before any
grid work), a valid size with invalid difficulty yields the
InvalidDifficulty error, and valid inputs yield Ok with grid and
solution both of length size*size. -/
theorem claim_C7 (size difficulty : Int) (seed : Nat) :
    (is_valid_size size = true ↔
        (size = 9 ∨ size = 16 ∨ size = 25 ∨ size = 36 ∨ size = 49 ∨ size = 100)) ∧
      (is_valid_difficulty difficulty = true ↔
        (difficulty = 0 ∨ difficulty = 1 ∨ difficulty = 2 ∨ difficulty = 3)) ∧
      (is_valid_size size = false →
        generate size difficulty seed = Except.error
          ("Invalid size: " ++ toString size ++ ". Must be one of: 9, 16, 25, 36, 49, 100")) ∧
      (is_valid_size size = true → is_valid_difficulty difficulty = false →
        generate size difficulty seed = Except.error
          ("Invalid difficulty: " ++ toString difficulty ++
            ". Must be 0-3 (easy, medium, hard, expert)")) ∧
      (is_valid_size size = true → is_valid_difficulty difficulty = true →
        ∃ grid solution,
          generate size difficulty seed = Except.ok (grid, solution) ∧
          grid.length = size.toNat * size.toNat ∧
          solution.length = size.toNat * size.toNat) := by
  refine ⟨?_, ?_, ?_, ?_, ?_⟩
  · rw [is_valid_size]
    simp only [Bool.or_eq_true, beq_iff_eq]
    tauto
  · rw [is_valid_difficulty]
    simp only [Bool.and_eq_true, decide_eq_true_eq]
    omega
  · intro h
    rw [generate, h]
    rfl
  · intro h1 h2
    rw [generate, h1, h2]
    rfl
  · intro h1 h2
    have hset : size.toNat = 9 ∨ size.toNat = 16 ∨ size.toNat = 25 ∨ size.toNat = 36 ∨
        size.toNat = 49 ∨ size.toNat = 100 := by
      rw [is_valid_size] at h1
      simp only [Bool.or_eq_true, beq_iff_eq] at h1
      omega
    obtain ⟨hlen, hval⟩ := generate_solution_valid size.toNat seed hset
    refine ⟨create_puzzle (generate_solution size.toNat seed) difficulty size.toNat (seed + 1),
      generate_solution size.toNat seed, ?_, ?_, ?_⟩
    · rw [generate, h1, h2]
      simp only [Bool.not_true, Bool.false_eq_true, if_false]
      rw [hval]
      simp
    · exact ((create_puzzle_subset (generate_solution size.toNat seed) difficulty
        size.toNat (seed + 1)).1).trans hlen
    · exact hlen

/-- C8: `check_constraints` accepts a value exactly when it lies in
[1, size] and duplicates no other cell of the same row, column or box
(the cell under test itself excluded), for perfect-square sizes and
in-bounds coordinates. -/
theorem claim_C8 (g : List Int) (size row col : Nat) (value : Int)
    (hs : usqrt size * usqrt size = size) (hrow : row < size) (hcol : col < size) :
    check_constraints g size row col value = true ↔
      (1 ≤ value ∧ value ≤ (size : Int) ∧
        ∀ j, j < size * size → j ≠ row * size + col →
          sameUnit size (usqrt size) j (row * size + col) → cell g j ≠ value) :=
  check_constraints_iff g size row col value hs hrow hcol

theorem claim_C8_witness :
    check_constraints puzzle4 4 0 0 2 = true ↔
      (1 ≤ (2 : Int) ∧ (2 : Int) ≤ ((4 : Nat) : Int) ∧
        ∀ j, j < 4 * 4 → j ≠ 0 * 4 + 0 →
          sameUnit 4 (usqrt 4) j (0 * 4 + 0) → cell puzzle4 j ≠ 2) :=
  claim_C8 puzzle4 4 0 0 2 (by decide) (by decide) (by decide)

/-- C10: the recursive solution counter returns its buffer exactly as
received on every path (every written cell is reset to 0), so counting
has no observable effect on any grid; `count_solutions` itself only
ever passes a copy. -/
theorem claim_C10 (g : List Int) (size pos m : Nat) :
    (count_solutions_recursive g size pos m).1 = g :=
  count_solutions_recursive_fst g size pos m

end ClaimTheorems

end SudokuGen
